import Mathlib

/-!
Verification development for the hashcat pattern-dictionary feed plugin
(`src/feeds/feed_pattern_dict.c`).

The C sources are shallowly embedded: machine integers (`u32`, `u64`,
`size_t`) become `Nat` with explicit saturation against `U64_MAX` exactly
where the C code checks for overflow; byte buffers become `List Nat`;
fallible functions return `Except pd_error`.  Division and modulo by zero
are total in Lean (`x / 0 = 0`, `x % 0 = x`); the C code only ever divides
by charset sizes and keyspaces that are at least 1 once a pattern has been
compiled, and the theorems below carry those hypotheses explicitly.
-/

/-- Maximum representable `u64` value, `UINT64_MAX` in the C sources. -/
def U64_MAX : Nat := 18446744073709551615

/-- `SIZE_MAX` of the build_word_index allocation-overflow check; the plugin
is built for 64-bit hosts, where `size_t` is 64 bits wide. -/
def SIZE_MAX : Nat := 18446744073709551615

/-- Modelled from the spec: `PW_MAX`, the host framework's maximum supported
password length, is defined in hashcat headers outside this plugin's sources;
the spec calls it "a fixed maximum output length `L`" and hashcat fixes it
at 256. -/
def PW_MAX : Nat := 256

/-- `PATTERN_MAX_POSITIONS` from `feed_pattern_dict.h`. -/
def PATTERN_MAX_POSITIONS : Nat := 32

/-- `CS_CUSTOM_MAX` from `feed_pattern_dict.h`. -/
def CS_CUSTOM_MAX : Nat := 256

/-- `CUSTOM_CHARSET_COUNT` from `feed_pattern_dict.h`. -/
def CUSTOM_CHARSET_COUNT : Nat := 4

/-- `CHARSET_LOWER`: the bytes of "abcdefghijklmnopqrstuvwxyz". -/
def CHARSET_LOWER : List Nat := (List.range 26).map (fun i => 97 + i)

/-- `CHARSET_UPPER`: the bytes of "ABCDEFGHIJKLMNOPQRSTUVWXYZ". -/
def CHARSET_UPPER : List Nat := (List.range 26).map (fun i => 65 + i)

/-- `CHARSET_DIGIT`: the bytes of "0123456789". -/
def CHARSET_DIGIT : List Nat := (List.range 10).map (fun i => 48 + i)

/-- `CHARSET_SPECIAL`: the 33 bytes of the C literal
" !\"#$%&'()*+,-./:;<=>?@[\\]^_`\x7b|\x7d~" in order (ASCII codes
32..47, 58..64, 91..96, 123..126). -/
def CHARSET_SPECIAL : List Nat :=
  [32, 33, 34, 35, 36, 37, 38, 39, 40, 41, 42, 43, 44, 45, 46, 47,
   58, 59, 60, 61, 62, 63, 64, 91, 92, 93, 94, 95, 96, 123, 124, 125, 126]

/-- `CHARSET_HEX_LOW`: the bytes of "0123456789abcdef". -/
def CHARSET_HEX_LOW : List Nat := CHARSET_DIGIT ++ [97, 98, 99, 100, 101, 102]

/-- `CHARSET_HEX_UP`: the bytes of "0123456789ABCDEF". -/
def CHARSET_HEX_UP : List Nat := CHARSET_DIGIT ++ [65, 66, 67, 68, 69, 70]

/-- `CHARSET_BINARY`: bytes 0x00..0xff, as built by `init_charsets`. -/
def CHARSET_BINARY : List Nat := List.range 256

/-- `ctx->cs_all`: concatenation lower ++ upper ++ digit ++ special, as
built by `init_charsets`. -/
def CHARSET_ALL : List Nat :=
  CHARSET_LOWER ++ CHARSET_UPPER ++ CHARSET_DIGIT ++ CHARSET_SPECIAL

/-- The `pattern_pos_type` enum of `feed_pattern_dict.h`. -/
inductive pattern_pos_type where
  | POS_LOWER
  | POS_UPPER
  | POS_DIGIT
  | POS_SPECIAL
  | POS_ALL
  | POS_HEX_LOW
  | POS_HEX_UP
  | POS_BINARY
  | POS_CUSTOM_1
  | POS_CUSTOM_2
  | POS_CUSTOM_3
  | POS_CUSTOM_4
  | POS_WORD
  | POS_LITERAL
deriving DecidableEq

open pattern_pos_type

/-- The `pattern_position` struct: a position's kind, the literal byte for
`POS_LITERAL`, and the charset bytes the C struct points to (the C code
keeps the pointer and `charset_len` together and always in sync, so the
embedding stores the byte list and uses its length). For `POS_WORD` the C
charset pointer is NULL with length 0, embedded as the empty list. -/
structure pattern_position where
  type : pattern_pos_type
  literal_char : Nat
  charset : List Nat
deriving DecidableEq

/-- Placeholder `pattern_position` used as the `getD` default when indexing
position lists (never reached under the well-formedness hypotheses). -/
def dummy_position : pattern_position := ⟨POS_LITERAL, 0, []⟩

/-- Error taxonomy of the plugin's `error_set` call sites, named after the
spec's §7 error list. -/
inductive pd_error where
  | PatternTooLong
  | DanglingEscape
  | SpecifierInvalid
  | WordPlaceholderMissing
  | WordPlaceholderDuplicated
  | InvalidSlot
  | UndefinedReference
  | EmptyCharset
  | EmptyWordlist
  | CapacityExceeded
deriving DecidableEq

/-- The four custom charset slots `ctx->cs_custom` with their
`cs_custom_defined` flags: `none` is an undefined slot, `some bs` a defined
slot holding bytes `bs` (of length `ctx->cs_custom_len`). -/
def emptyCustoms : List (Option (List Nat)) := [none, none, none, none]

/-- Number of bytes `parse_custom_charset` copies from a source charset:
`copy_len = (cs_len + src_len <= CS_CUSTOM_MAX) ? src_len : (CS_CUSTOM_MAX - cs_len)`. -/
def pcc_copy_len (cs_len src_len : Nat) : Nat :=
  if cs_len + src_len ≤ CS_CUSTOM_MAX then src_len else CS_CUSTOM_MAX - cs_len

/-- The `case 'a'` branch of `parse_custom_charset`: append each of the four
built-in sets only when it fits entirely within `CS_CUSTOM_MAX`. -/
def pcc_add_all (cs : List Nat) : List Nat :=
  let cs1 := if cs.length + CHARSET_LOWER.length ≤ CS_CUSTOM_MAX then cs ++ CHARSET_LOWER else cs
  let cs2 := if cs1.length + CHARSET_UPPER.length ≤ CS_CUSTOM_MAX then cs1 ++ CHARSET_UPPER else cs1
  let cs3 := if cs2.length + CHARSET_DIGIT.length ≤ CS_CUSTOM_MAX then cs2 ++ CHARSET_DIGIT else cs2
  if cs3.length + CHARSET_SPECIAL.length ≤ CS_CUSTOM_MAX then cs3 ++ CHARSET_SPECIAL else cs3

/-- One source charset appended with `parse_custom_charset`'s truncating
`memcpy` ("Copy charset" block, guarded by `src && src_len > 0`). -/
def pcc_copy (cs src : List Nat) : List Nat :=
  if 0 < src.length then cs ++ src.take (pcc_copy_len cs.length src.length) else cs

/-- The expansion loop of `parse_custom_charset`
(`while (i < def_len && cs_len < CS_CUSTOM_MAX)`), one constructor case per
C `switch` branch. `customs` is the current state of the four custom slots. -/
def pcc_go (customs : List (Option (List Nat))) :
    List Char → List Nat → Except pd_error (List Nat)
  | [], cs => Except.ok cs
  | c :: rest1, cs =>
    if CS_CUSTOM_MAX ≤ cs.length then Except.ok cs
    else
        if c = '?' then
          match rest1 with
          | [] => Except.error pd_error.DanglingEscape
          | s :: rest2 =>
            match s with
            | 'l' => pcc_go customs rest2 (pcc_copy cs CHARSET_LOWER)
            | 'u' => pcc_go customs rest2 (pcc_copy cs CHARSET_UPPER)
            | 'd' => pcc_go customs rest2 (pcc_copy cs CHARSET_DIGIT)
            | 's' => pcc_go customs rest2 (pcc_copy cs CHARSET_SPECIAL)
            | 'h' => pcc_go customs rest2 (pcc_copy cs CHARSET_HEX_LOW)
            | 'H' => pcc_go customs rest2 (pcc_copy cs CHARSET_HEX_UP)
            | 'b' => pcc_go customs rest2 (pcc_copy cs CHARSET_BINARY)
            | 'a' => pcc_go customs rest2 (pcc_add_all cs)
            | '1' =>
              match customs.getD 0 none with
              | none => Except.error pd_error.UndefinedReference
              | some src => pcc_go customs rest2 (pcc_copy cs src)
            | '2' =>
              match customs.getD 1 none with
              | none => Except.error pd_error.UndefinedReference
              | some src => pcc_go customs rest2 (pcc_copy cs src)
            | '3' =>
              match customs.getD 2 none with
              | none => Except.error pd_error.UndefinedReference
              | some src => pcc_go customs rest2 (pcc_copy cs src)
            | '4' =>
              match customs.getD 3 none with
              | none => Except.error pd_error.UndefinedReference
              | some src => pcc_go customs rest2 (pcc_copy cs src)
            | '?' =>
              pcc_go customs rest2
                (if cs.length < CS_CUSTOM_MAX then cs ++ [63] else cs)
            | _ => Except.error pd_error.SpecifierInvalid
        else
          pcc_go customs rest1 (cs ++ [c.toNat])

/-- `parse_custom_charset`: expand slot `cs_idx`'s definition string and
record the result; fails on an out-of-range slot, a dangling or invalid
specifier, a reference to an undefined slot, or an empty expansion. -/
def parse_custom_charset (customs : List (Option (List Nat))) (cs_idx : Nat)
    (cs_def : List Char) : Except pd_error (List (Option (List Nat))) :=
  if CUSTOM_CHARSET_COUNT ≤ cs_idx then Except.error pd_error.InvalidSlot
  else
    match pcc_go customs cs_def [] with
    | Except.error e => Except.error e
    | Except.ok r =>
      if r = [] then Except.error pd_error.EmptyCharset
      else Except.ok (customs.set cs_idx (some r))

/-- Result of `parse_pattern`: the compiled position list together with the
recorded word position and the prefix/suffix position counts. -/
structure parsed_pattern where
  positions : List pattern_position
  word_position : Nat
  pre_count : Nat
  suf_count : Nat
deriving DecidableEq

/-- The post-scan counting loop of `parse_pattern` ("Count prefix and suffix
positions"): positions strictly before / strictly after the word position. -/
def pp_counts (num_positions word_position : Nat) : Nat × Nat :=
  (((List.range num_positions).filter (fun j => j < word_position)).length,
   ((List.range num_positions).filter (fun j => word_position < j)).length)

/-- The scanning loop of `parse_pattern`.  `acc` is the positions filled so
far (`ctx->num_positions = acc.length`), `found` is `found_word`, `wp` is
`ctx->word_position`. -/
def pp_go (customs : List (Option (List Nat))) :
    List Char → List pattern_position → Bool → Nat →
    Except pd_error parsed_pattern
  | [], acc, found, wp =>
    if found then
      Except.ok ⟨acc, wp, (pp_counts acc.length wp).1, (pp_counts acc.length wp).2⟩
    else Except.error pd_error.WordPlaceholderMissing
  | c :: rest1, acc, found, wp =>
    if PATTERN_MAX_POSITIONS ≤ acc.length then Except.error pd_error.PatternTooLong
    else if c = '?' then
      match rest1 with
      | [] => Except.error pd_error.DanglingEscape
      | s :: rest2 =>
        match s with
        | 'l' => pp_go customs rest2 (acc ++ [⟨POS_LOWER, 0, CHARSET_LOWER⟩]) found wp
        | 'u' => pp_go customs rest2 (acc ++ [⟨POS_UPPER, 0, CHARSET_UPPER⟩]) found wp
        | 'd' => pp_go customs rest2 (acc ++ [⟨POS_DIGIT, 0, CHARSET_DIGIT⟩]) found wp
        | 's' => pp_go customs rest2 (acc ++ [⟨POS_SPECIAL, 0, CHARSET_SPECIAL⟩]) found wp
        | 'a' => pp_go customs rest2 (acc ++ [⟨POS_ALL, 0, CHARSET_ALL⟩]) found wp
        | 'h' => pp_go customs rest2 (acc ++ [⟨POS_HEX_LOW, 0, CHARSET_HEX_LOW⟩]) found wp
        | 'H' => pp_go customs rest2 (acc ++ [⟨POS_HEX_UP, 0, CHARSET_HEX_UP⟩]) found wp
        | 'b' => pp_go customs rest2 (acc ++ [⟨POS_BINARY, 0, CHARSET_BINARY⟩]) found wp
        | '1' =>
          match customs.getD 0 none with
          | none => Except.error pd_error.UndefinedReference
          | some src => pp_go customs rest2 (acc ++ [⟨POS_CUSTOM_1, 0, src⟩]) found wp
        | '2' =>
          match customs.getD 1 none with
          | none => Except.error pd_error.UndefinedReference
          | some src => pp_go customs rest2 (acc ++ [⟨POS_CUSTOM_2, 0, src⟩]) found wp
        | '3' =>
          match customs.getD 2 none with
          | none => Except.error pd_error.UndefinedReference
          | some src => pp_go customs rest2 (acc ++ [⟨POS_CUSTOM_3, 0, src⟩]) found wp
        | '4' =>
          match customs.getD 3 none with
          | none => Except.error pd_error.UndefinedReference
          | some src => pp_go customs rest2 (acc ++ [⟨POS_CUSTOM_4, 0, src⟩]) found wp
        | 'W' =>
          if found then Except.error pd_error.WordPlaceholderDuplicated
          else pp_go customs rest2 (acc ++ [⟨POS_WORD, 0, []⟩]) true acc.length
        | '?' => pp_go customs rest2 (acc ++ [⟨POS_LITERAL, 63, [63]⟩]) found wp
        | _ => Except.error pd_error.SpecifierInvalid
    else
      pp_go customs rest1 (acc ++ [⟨POS_LITERAL, c.toNat, [c.toNat]⟩]) found wp

/-- `parse_pattern`: scan the pattern left to right; `ctx->word_position`
starts as `(u32)-1` and exactly one `?W` escape must be seen. -/
def parse_pattern (customs : List (Option (List Nat))) (pattern : List Char) :
    Except pd_error parsed_pattern :=
  pp_go customs pattern [] false 4294967295

/-- The pass-1 newline count of `count_words`. -/
def countNl : List Nat → Nat
  | [] => 0
  | b :: r => (if b = 10 then 1 else 0) + countNl r

/-- `count_words`: newline count, plus one if the buffer is non-empty and
its last byte is not a newline. -/
def count_words (data : List Nat) : Nat :=
  countNl data + (if data ≠ [] ∧ data.getLast? ≠ some 10 then 1 else 0)

/-- Trailing-`\r` strip of `build_word_index`: the recorded length of the
line starting at `line_start` with raw length `line_len`. -/
def trim_cr_len (data : List Nat) (line_start line_len : Nat) : Nat :=
  if 0 < line_len ∧ data.getD (line_start + line_len - 1) 0 = 13 then line_len - 1
  else line_len

/-- Pass 2 of `build_word_index`: the scanning loop over byte index `i` with
current `line_start`, producing the `(word_offset, word_length)` entries in
order, then the "last line without newline" entry when `line_start < data_len`. -/
def bwi_loop (data : List Nat) (i line_start : Nat) : List (Nat × Nat) :=
  if h : i < data.length then
    if data.getD i 0 = 10 then
      (line_start, trim_cr_len data line_start (i - line_start)) ::
        bwi_loop data (i + 1) (i + 1)
    else
      bwi_loop data (i + 1) line_start
  else
    if line_start < data.length then
      [(line_start, trim_cr_len data line_start (data.length - line_start))]
    else []
termination_by data.length - i

/-- `build_word_index`: pass 1 counts, a zero count is `EmptyWordlist`, an
allocation-size overflow is `CapacityExceeded`, then pass 2 records the
entries (the `hcmalloc` calls are modelled as always succeeding). -/
def build_word_index (data : List Nat) : Except pd_error (List (Nat × Nat)) :=
  let wc := count_words data
  if wc = 0 then Except.error pd_error.EmptyWordlist
  else if SIZE_MAX / 8 < wc then Except.error pd_error.CapacityExceeded
  else Except.ok (bwi_loop data 0 0)

/-- Trimmed length of one line segment (spec side): strip one trailing
carriage return if present. -/
def trimLen (seg : List Nat) : Nat :=
  if seg.getLast? = some 13 then seg.length - 1 else seg.length

theorem dropWhile_length_le {α : Type} (p : α → Bool) (l : List α) :
    (l.dropWhile p).length ≤ l.length := by
  induction l with
  | nil => simp [List.dropWhile]
  | cons a l ih =>
    by_cases h : p a
    · simp [List.dropWhile, h]
      omega
    · simp [List.dropWhile, h]

/-- Modelled from the spec (§4.3 Word Index, for comparison with the code's
two-pass `build_word_index`): split the remaining buffer at each newline,
recording each line's start offset and trimmed length in order, plus a final
unterminated line when bytes remain. -/
def spec_go (start : Nat) (rest : List Nat) : List (Nat × Nat) :=
  if rest = [] then []
  else
    let seg := rest.takeWhile (fun b => b ≠ 10)
    match h : rest.dropWhile (fun b => b ≠ 10) with
    | [] => [(start, trimLen seg)]
    | _ :: tail =>
      (start, trimLen seg) :: spec_go (start + seg.length + 1) tail
termination_by rest.length
decreasing_by
  have h1 : (rest.dropWhile (fun b => b ≠ 10)).length ≤ rest.length :=
    dropWhile_length_le _ _
  rw [h] at h1
  simp at h1
  omega

/-- Modelled from the spec: the full line table of a word-list buffer. -/
def spec_lines (data : List Nat) : List (Nat × Nat) := spec_go 0 data

/-- The loop of `calculate_mask_keyspace` with accumulator `keyspace`,
including the pre-multiplication overflow check that returns `UINT64_MAX`. -/
def cmk_go (keyspace : Nat) : List pattern_position → Nat
  | [] => keyspace
  | p :: rest =>
    if p.type ≠ POS_WORD then
      if 0 < keyspace ∧ U64_MAX / keyspace < p.charset.length then U64_MAX
      else cmk_go (keyspace * p.charset.length) rest
    else cmk_go keyspace rest

/-- `calculate_mask_keyspace`: product of non-word charset sizes, saturating
at `UINT64_MAX`. -/
def calculate_mask_keyspace (ps : List pattern_position) : Nat := cmk_go 1 ps

/-- The exact (unsaturated) product of the non-word charset sizes. -/
def maskProd : List pattern_position → Nat
  | [] => 1
  | p :: rest => (if p.type = POS_WORD then 1 else p.charset.length) * maskProd rest

/-- The total-keyspace computation in `global_keyspace`: `word_count *
mask_keyspace` with the same pre-multiplication saturation check. -/
def global_keyspace_total (word_count mask_keyspace : Nat) : Nat :=
  if 0 < mask_keyspace ∧ U64_MAX / mask_keyspace < word_count then U64_MAX
  else word_count * mask_keyspace

/-- The loop of `index_to_mask_indices`, processing positions from last to
first: returns the digit list together with the final `remaining` value. -/
def i2d_go : List pattern_position → Nat → List Nat × Nat
  | [], remaining => ([], remaining)
  | p :: rest, remaining =>
    let pr := i2d_go rest remaining
    if p.type = POS_WORD then (0 :: pr.1, pr.2)
    else (pr.2 % p.charset.length :: pr.1, pr.2 / p.charset.length)

/-- `index_to_mask_indices`: mixed-radix (odometer) decomposition of a mask
index, last position least significant, word positions getting digit 0. -/
def index_to_mask_indices (ps : List pattern_position) (mask_idx : Nat) : List Nat :=
  (i2d_go ps mask_idx).1

/-- Modelled from the spec (§4.4 and §8 name it `digits_to_index`, with no
counterpart in the C sources): mixed-radix recomposition of a digit array,
the last position being least significant and word positions ignored. -/
def digits_to_index : List pattern_position → List Nat → Nat
  | [], _ => 0
  | p :: rest, ds =>
    if p.type = POS_WORD then digits_to_index rest ds.tail
    else ds.headD 0 * maskProd rest + digits_to_index rest ds.tail

/-- A digit array valid for a position list: same length, digit 0 at the
word positions, and a digit below the charset size elsewhere. -/
def validDigits : List pattern_position → List Nat → Bool
  | [], [] => true
  | p :: ps, d :: ds =>
    (if p.type = POS_WORD then d == 0 else decide (d < p.charset.length)) &&
      validDigits ps ds
  | _, _ => false

/-- The compiled-pattern / word-index part of `pd_feed_global_t` that the
keyspace, generator and cursor operations read. -/
structure pd_feed_global where
  positions : List pattern_position
  word_position : Nat
  word_count : Nat
  mask_keyspace : Nat
  total_keyspace : Nat
  word_offsets : List Nat
  word_lengths : List Nat
deriving DecidableEq

/-- The cursor part of `pd_feed_thread_t`. -/
structure pd_feed_thread where
  current_word_idx : Nat
  current_mask_idx : Nat
  current_offset : Nat
  mask_indices : List Nat
deriving DecidableEq

/-- The suffix loop of `generate_candidate`
(`for i = word_position+1 .. num_positions`, breaking once `out_len >= PW_MAX`). -/
def suffix_go (g : pd_feed_global) (mi : List Nat) (i : Nat) (out : List Nat) :
    List Nat :=
  if i < g.positions.length then
    if PW_MAX ≤ out.length then out
    else
      suffix_go g mi (i + 1)
        (out ++ [(g.positions.getD i dummy_position).charset.getD (mi.getD i 0) 0])
  else out
termination_by g.positions.length - i

/-- The prefix loop of `generate_candidate`
(`for i = 0 .. word_position`, one charset byte per position). -/
def gen_pre (g : pd_feed_global) (mi : List Nat) : List Nat :=
  (List.range g.word_position).map
    (fun i => (g.positions.getD i dummy_position).charset.getD (mi.getD i 0) 0)

/-- `generate_candidate`: prefix charset bytes, then the word truncated so
that the total never exceeds `PW_MAX` (the `memcpy` reads exactly the
truncated count of bytes starting at the word's offset), then suffix charset
bytes while the total stays below `PW_MAX`.  The C function returns
`out_len`, which is the length of the returned list. -/
def generate_candidate (g : pd_feed_global) (t : pd_feed_thread) (data : List Nat) :
    List Nat :=
  let word_off := g.word_offsets.getD t.current_word_idx 0
  let word_len := g.word_lengths.getD t.current_word_idx 0
  let pre := gen_pre g t.mask_indices
  let word_len2 := if PW_MAX < pre.length + word_len then PW_MAX - pre.length else word_len
  let wordB := (List.range word_len2).map (fun j => data.getD (word_off + j) 0)
  suffix_go g t.mask_indices (g.word_position + 1) (pre ++ wordB)

/-- `advance_position`: bump the mask index, roll over to the next word at
`mask_keyspace`, recompute the digit array while a word remains, bump the
linear offset. -/
def advance_position (g : pd_feed_global) (t : pd_feed_thread) : pd_feed_thread :=
  let m1 := t.current_mask_idx + 1
  let m2 := if g.mask_keyspace ≤ m1 then 0 else m1
  let w2 := if g.mask_keyspace ≤ m1 then t.current_word_idx + 1 else t.current_word_idx
  { current_word_idx := w2
    current_mask_idx := m2
    current_offset := t.current_offset + 1
    mask_indices :=
      if w2 < g.word_count then index_to_mask_indices g.positions m2
      else t.mask_indices }

/-- `thread_next`: the empty list is the zero-length "no more" return (the C
function returns 0 and leaves the cursor untouched); otherwise the current
candidate is produced and the cursor advanced. -/
def thread_next (g : pd_feed_global) (t : pd_feed_thread) (data : List Nat) :
    List Nat × pd_feed_thread :=
  if g.word_count ≤ t.current_word_idx then ([], t)
  else (generate_candidate g t data, advance_position g t)

/-- `thread_seek`: `false` is the failure return (the C function calls
`error_set` and leaves the cursor untouched); on success the cursor is
rewritten from the offset's word/mask decomposition. -/
def thread_seek (g : pd_feed_global) (t : pd_feed_thread) (offset : Nat) :
    Bool × pd_feed_thread :=
  if g.total_keyspace ≤ offset then (false, t)
  else
    (true,
     { current_word_idx := offset / g.mask_keyspace
       current_mask_idx := offset % g.mask_keyspace
       current_offset := offset
       mask_indices := index_to_mask_indices g.positions (offset % g.mask_keyspace) })

/-- The cursor state installed by `thread_init` ("Initialize position"). -/
def thread_init_cursor (g : pd_feed_global) : pd_feed_thread :=
  ⟨0, 0, 0, index_to_mask_indices g.positions 0⟩

/-- The cursor after `k` calls of `thread_next` starting from the
freshly initialized cursor. -/
def run_next (g : pd_feed_global) (data : List Nat) : Nat → pd_feed_thread
  | 0 => thread_init_cursor g
  | k + 1 => (thread_next g (run_next g data k) data).2

/-- Well-formedness of a compiled pattern, as established by a successful
`parse_pattern`: the word position is a `POS_WORD` entry inside a list of at
most `PATTERN_MAX_POSITIONS` positions, no other entry is `POS_WORD`, and
every non-word entry has a non-empty charset. -/
def WFPattern (ps : List pattern_position) (wp : Nat) : Prop :=
  wp < ps.length ∧
  ps.length ≤ PATTERN_MAX_POSITIONS ∧
  (ps.getD wp dummy_position).type = POS_WORD ∧
  (∀ i, i < ps.length → i ≠ wp → (ps.getD i dummy_position).type ≠ POS_WORD) ∧
  (∀ p ∈ ps, p.type ≠ POS_WORD → 1 ≤ p.charset.length)

instance (ps : List pattern_position) (wp : Nat) : Decidable (WFPattern ps wp) := by
  unfold WFPattern
  infer_instance

/-- Cursor digit-array invariant: every digit at a non-word position indexes
strictly inside that position's charset. -/
def cursorInv (ps : List pattern_position) (t : pd_feed_thread) : Prop :=
  ∀ i, i < ps.length → (ps.getD i dummy_position).type ≠ POS_WORD →
    t.mask_indices.getD i 0 < (ps.getD i dummy_position).charset.length

instance (ps : List pattern_position) (t : pd_feed_thread) :
    Decidable (cursorInv ps t) := by
  unfold cursorInv
  infer_instance

/-- Parse-level count of `?W` word-placeholder escapes in a pattern: the
scan consumes two characters for every escape, so a `?` that is itself
escaped does not start a placeholder. -/
def wCount : List Char → Nat
  | '?' :: s :: rest => (if s = 'W' then 1 else 0) + wCount rest
  | _ :: rest => wCount rest
  | [] => 0

/-! ### Keyspace saturation (C2) -/

theorem maskProd_pos (ps : List pattern_position)
    (h : ∀ p ∈ ps, p.type ≠ POS_WORD → 1 ≤ p.charset.length) :
    1 ≤ maskProd ps := by
  induction ps with
  | nil => simp [maskProd]
  | cons p rest ih =>
    have hrest := ih (fun q hq => h q (List.mem_cons_of_mem _ hq))
    by_cases hw : p.type = POS_WORD
    · simpa [maskProd, hw] using hrest
    · have hc := h p (List.mem_cons_self _ _) hw
      simp only [maskProd, if_neg hw]
      exact Nat.one_le_iff_ne_zero.mpr
        (Nat.mul_ne_zero (by omega) (by omega))

theorem cmk_go_spec (ps : List pattern_position) :
    ∀ k, 1 ≤ k → k ≤ U64_MAX →
    (∀ p ∈ ps, p.type ≠ POS_WORD → 1 ≤ p.charset.length) →
    cmk_go k ps = min (k * maskProd ps) U64_MAX := by
  induction ps with
  | nil =>
    intro k hk1 hkM _
    simp [cmk_go, maskProd]
    omega
  | cons p rest ih =>
    intro k hk1 hkM h
    have hrest : ∀ q ∈ rest, q.type ≠ POS_WORD → 1 ≤ q.charset.length :=
      fun q hq => h q (List.mem_cons_of_mem _ hq)
    have hprodrest := maskProd_pos rest hrest
    by_cases hw : p.type = POS_WORD
    · have e1 : cmk_go k (p :: rest) = cmk_go k rest := by
        simp [cmk_go, hw]
      have e2 : maskProd (p :: rest) = maskProd rest := by
        simp [maskProd, hw]
      rw [e1, e2]
      exact ih k hk1 hkM hrest
    · have hc : 1 ≤ p.charset.length := h p (List.mem_cons_self _ _) hw
      have e1 : cmk_go k (p :: rest) =
          if 0 < k ∧ U64_MAX / k < p.charset.length then U64_MAX
          else cmk_go (k * p.charset.length) rest := by
        simp [cmk_go, hw]
      have e2 : maskProd (p :: rest) = p.charset.length * maskProd rest := by
        simp [maskProd, hw]
      rw [e1, e2]
      by_cases hov : 0 < k ∧ U64_MAX / k < p.charset.length
      · have hklt : U64_MAX < k * p.charset.length := by
          rcases hov with ⟨hk0, hdiv⟩
          by_contra hle
          push_neg at hle
          have hcm : p.charset.length * k ≤ U64_MAX := by
            rw [Nat.mul_comm]
            omega
          have : p.charset.length ≤ U64_MAX / k :=
            (Nat.le_div_iff_mul_le hk0).mpr hcm
          omega
        rw [if_pos hov]
        have : U64_MAX < k * (p.charset.length * maskProd rest) := by
          calc U64_MAX < k * p.charset.length := hklt
            _ = k * p.charset.length * 1 := by ring
            _ ≤ k * p.charset.length * maskProd rest :=
                Nat.mul_le_mul (le_refl _) hprodrest
            _ = k * (p.charset.length * maskProd rest) := by ring
        omega
      · rw [if_neg hov]
        have hle : k * p.charset.length ≤ U64_MAX := by
          rcases Decidable.not_and_iff_or_not.mp hov with h0 | hdiv
          · omega
          · push_neg at hdiv
            have := (Nat.le_div_iff_mul_le (by omega : 0 < k)).mp hdiv
            rwa [Nat.mul_comm] at this
        have := ih (k * p.charset.length)
          (Nat.one_le_iff_ne_zero.mpr (Nat.mul_ne_zero (by omega) (by omega)))
          hle hrest
        rw [this, Nat.mul_assoc]

theorem global_keyspace_total_min (wc mk : Nat) :
    global_keyspace_total wc mk = min (wc * mk) U64_MAX := by
  unfold global_keyspace_total
  by_cases h : 0 < mk ∧ U64_MAX / mk < wc
  · rcases h with ⟨hmk, hdiv⟩
    have : U64_MAX < wc * mk := by
      by_contra hle
      push_neg at hle
      have : wc ≤ U64_MAX / mk := (Nat.le_div_iff_mul_le hmk).mpr hle
      omega
    rw [if_pos ⟨hmk, hdiv⟩]
    omega
  · rw [if_neg h]
    rcases Decidable.not_and_iff_or_not.mp h with h0 | hdiv
    · have : mk = 0 := by omega
      subst this
      simp
    · push_neg at hdiv
      have hmk : 0 < mk ∨ mk = 0 := by omega
      rcases hmk with hmk | hmk
      · have := (Nat.le_div_iff_mul_le hmk).mp hdiv
        omega
      · subst hmk
        simp

theorem calculate_mask_keyspace_min (ps : List pattern_position)
    (h : ∀ p ∈ ps, p.type ≠ POS_WORD → 1 ≤ p.charset.length) :
    calculate_mask_keyspace ps = min (maskProd ps) U64_MAX := by
  have := cmk_go_spec ps 1 (le_refl 1) (by unfold U64_MAX; omega) h
  simpa [calculate_mask_keyspace] using this

/-- C2: for a compiled pattern (every non-word position has a non-empty
charset), `calculate_mask_keyspace` is the exact product of the non-word
charset sizes saturated at `UINT64_MAX` (never wrapping), and the total
keyspace computed by `global_keyspace` is `word_count * mask_keyspace`
under the same saturation rule. -/
theorem mask_keyspace_saturating_product (ps : List pattern_position) (wc : Nat)
    (h : ∀ p ∈ ps, p.type ≠ POS_WORD → 1 ≤ p.charset.length) :
    calculate_mask_keyspace ps = min (maskProd ps) U64_MAX ∧
    global_keyspace_total wc (calculate_mask_keyspace ps) =
      min (wc * calculate_mask_keyspace ps) U64_MAX :=
  ⟨calculate_mask_keyspace_min ps h, global_keyspace_total_min _ _⟩

/-- Witness for C2 at the pattern `?d?W` with five words: the mask keyspace
is exactly 10 and the total keyspace 50. -/
theorem mask_keyspace_saturating_product_witness :
    calculate_mask_keyspace [⟨POS_DIGIT, 0, CHARSET_DIGIT⟩, ⟨POS_WORD, 0, []⟩] =
      min (maskProd [⟨POS_DIGIT, 0, CHARSET_DIGIT⟩, ⟨POS_WORD, 0, []⟩]) U64_MAX ∧
    global_keyspace_total 5
        (calculate_mask_keyspace [⟨POS_DIGIT, 0, CHARSET_DIGIT⟩, ⟨POS_WORD, 0, []⟩]) =
      min (5 * calculate_mask_keyspace [⟨POS_DIGIT, 0, CHARSET_DIGIT⟩, ⟨POS_WORD, 0, []⟩])
        U64_MAX :=
  mask_keyspace_saturating_product _ 5 (by decide)

/-! ### Seek (C1, C10) -/

/-- C1: `thread_seek` fails exactly when the offset reaches the total
keyspace (the C function also calls `error_set` on that path, modelled by
the `false` return); on failure every cursor field is left unchanged, and
for every in-range offset it succeeds and installs the word/mask
decomposition of the offset together with the recomputed digit array. -/
theorem thread_seek_spec (g : pd_feed_global) (t : pd_feed_thread) (offset : Nat) :
    ((thread_seek g t offset).1 = false ↔ g.total_keyspace ≤ offset) ∧
    (g.total_keyspace ≤ offset → (thread_seek g t offset).2 = t) ∧
    (offset < g.total_keyspace →
      (thread_seek g t offset).1 = true ∧
      (thread_seek g t offset).2.current_word_idx = offset / g.mask_keyspace ∧
      (thread_seek g t offset).2.current_mask_idx = offset % g.mask_keyspace ∧
      (thread_seek g t offset).2.current_offset = offset ∧
      (thread_seek g t offset).2.mask_indices =
        index_to_mask_indices g.positions (offset % g.mask_keyspace)) := by
  unfold thread_seek
  by_cases h : g.total_keyspace ≤ offset
  · rw [if_pos h]
    refine ⟨by simp [h], fun _ => rfl, fun hlt => absurd hlt (by omega)⟩
  · rw [if_neg h]
    refine ⟨by simp [h], fun hle => absurd hle h, fun _ => ⟨rfl, rfl, rfl, rfl, rfl⟩⟩

/-- Witness for C1 at a concrete global state: an in-range and an
out-of-range seek. -/
theorem thread_seek_spec_witness :
    ((thread_seek ⟨[⟨POS_WORD, 0, []⟩], 0, 3, 1, 3, [0, 2, 4], [1, 1, 1]⟩
        ⟨0, 0, 0, [0]⟩ 2).1 = true ∧
     (thread_seek ⟨[⟨POS_WORD, 0, []⟩], 0, 3, 1, 3, [0, 2, 4], [1, 1, 1]⟩
        ⟨0, 0, 0, [0]⟩ 2).2.current_word_idx = 2) ∧
    (thread_seek ⟨[⟨POS_WORD, 0, []⟩], 0, 3, 1, 3, [0, 2, 4], [1, 1, 1]⟩
        ⟨0, 0, 0, [0]⟩ 3).2 = ⟨0, 0, 0, [0]⟩ := by
  have h := thread_seek_spec ⟨[⟨POS_WORD, 0, []⟩], 0, 3, 1, 3, [0, 2, 4], [1, 1, 1]⟩
    ⟨0, 0, 0, [0]⟩ 2
  have h3 := thread_seek_spec ⟨[⟨POS_WORD, 0, []⟩], 0, 3, 1, 3, [0, 2, 4], [1, 1, 1]⟩
    ⟨0, 0, 0, [0]⟩ 3
  refine ⟨⟨(h.2.2 (by decide)).1, ?_⟩, h3.2.1 (by decide)⟩
  rw [(h.2.2 (by decide)).2.1]
  decide

/-- C10: every accepted seek leaves the cursor with an in-range word index
and mask index, for any total keyspace computed by `global_keyspace`
(saturated or not). -/
theorem thread_seek_in_bounds (g : pd_feed_global) (t : pd_feed_thread) (offset : Nat)
    (hmk : g.mask_keyspace = calculate_mask_keyspace g.positions)
    (htot : g.total_keyspace = global_keyspace_total g.word_count g.mask_keyspace)
    (hcs : ∀ p ∈ g.positions, p.type ≠ POS_WORD → 1 ≤ p.charset.length)
    (hoff : offset < g.total_keyspace) :
    (thread_seek g t offset).2.current_word_idx < g.word_count ∧
    (thread_seek g t offset).2.current_mask_idx < g.mask_keyspace := by
  have hmin := calculate_mask_keyspace_min g.positions hcs
  have hprod := maskProd_pos g.positions hcs
  have hmk1 : 1 ≤ g.mask_keyspace := by
    rw [hmk, hmin]
    have : (1 : Nat) ≤ U64_MAX := by unfold U64_MAX; omega
    omega
  have htle : g.total_keyspace ≤ g.word_count * g.mask_keyspace := by
    rw [htot, global_keyspace_total_min]
    omega
  have hseek : (thread_seek g t offset).2.current_word_idx = offset / g.mask_keyspace ∧
      (thread_seek g t offset).2.current_mask_idx = offset % g.mask_keyspace := by
    rw [thread_seek, if_neg (by omega : ¬g.total_keyspace ≤ offset)]
    exact ⟨rfl, rfl⟩
  rw [hseek.1, hseek.2]
  constructor
  · exact (Nat.div_lt_iff_lt_mul (by omega)).mpr (by omega)
  · exact Nat.mod_lt _ (by omega)

/-- Witness for C10: pattern `?d?W` over three words, seeking to offset 17. -/
theorem thread_seek_in_bounds_witness :
    (thread_seek ⟨[⟨POS_DIGIT, 0, CHARSET_DIGIT⟩, ⟨POS_WORD, 0, []⟩], 1, 3, 10, 30,
        [0, 2, 4], [1, 1, 1]⟩ ⟨0, 0, 0, [0, 0]⟩ 17).2.current_word_idx < 3 ∧
    (thread_seek ⟨[⟨POS_DIGIT, 0, CHARSET_DIGIT⟩, ⟨POS_WORD, 0, []⟩], 1, 3, 10, 30,
        [0, 2, 4], [1, 1, 1]⟩ ⟨0, 0, 0, [0, 0]⟩ 17).2.current_mask_idx < 10 :=
  thread_seek_in_bounds _ _ 17 (by decide) (by decide) (by decide) (by decide)

/-! ### Digit-array invariant (C9) -/

theorem i2d_go_fst_length (ps : List pattern_position) (m : Nat) :
    (i2d_go ps m).1.length = ps.length := by
  induction ps generalizing m with
  | nil => simp [i2d_go]
  | cons p rest ih =>
    by_cases hw : p.type = POS_WORD <;> simp [i2d_go, hw, ih]

theorem index_to_mask_indices_cons (p : pattern_position)
    (rest : List pattern_position) (m : Nat) :
    index_to_mask_indices (p :: rest) m =
      (if p.type = POS_WORD then 0 else (i2d_go rest m).2 % p.charset.length) ::
        index_to_mask_indices rest m := by
  by_cases hw : p.type = POS_WORD <;>
    simp [index_to_mask_indices, i2d_go, hw]

theorem i2d_entry_lt (ps : List pattern_position) (m : Nat) :
    ∀ i, i < ps.length →
      (ps.getD i dummy_position).type ≠ POS_WORD →
      1 ≤ (ps.getD i dummy_position).charset.length →
      (index_to_mask_indices ps m).getD i 0 <
        (ps.getD i dummy_position).charset.length := by
  induction ps generalizing m with
  | nil =>
    intro i hi
    simp at hi
  | cons p rest ih =>
    intro i hi hnw hcs
    rw [index_to_mask_indices_cons]
    cases i with
    | zero =>
      simp only [List.getD_cons_zero] at hnw hcs ⊢
      rw [if_neg hnw]
      exact Nat.mod_lt _ (by omega)
    | succ j =>
      simp only [List.getD_cons_succ] at hnw hcs ⊢
      exact ih m j (by simpa using hi) hnw hcs

/-- C9: the digit-array invariant — every entry at a non-word position
strictly below that position's charset size — holds for the freshly
initialized cursor, is preserved by `thread_next`, and is preserved by
every successful `thread_seek`, for any mask index value (saturated
included), provided every non-word position of the compiled pattern has a
non-empty charset.  The charset indexing of `generate_candidate` is
therefore always in bounds. -/
theorem cursor_digits_in_bounds (g : pd_feed_global) (data : List Nat)
    (t : pd_feed_thread) (offset : Nat)
    (hcs : ∀ p ∈ g.positions, p.type ≠ POS_WORD → 1 ≤ p.charset.length) :
    cursorInv g.positions (thread_init_cursor g) ∧
    (cursorInv g.positions t → cursorInv g.positions (thread_next g t data).2) ∧
    ((thread_seek g t offset).1 = true →
      cursorInv g.positions (thread_seek g t offset).2) := by
  have hgetD : ∀ i, i < g.positions.length →
      (g.positions.getD i dummy_position).type ≠ POS_WORD →
      1 ≤ (g.positions.getD i dummy_position).charset.length := by
    intro i hi hnw
    refine hcs _ ?_ hnw
    rw [List.getD_eq_getElem _ _ hi]
    exact List.getElem_mem hi
  have hfresh : ∀ m, cursorInv g.positions ⟨0, 0, 0, index_to_mask_indices g.positions m⟩ := by
    intro m i hi hnw
    exact i2d_entry_lt g.positions m i hi hnw (hgetD i hi hnw)
  refine ⟨hfresh 0, ?_, ?_⟩
  · intro hinv
    unfold thread_next
    by_cases hex : g.word_count ≤ t.current_word_idx
    · rw [if_pos hex]
      exact hinv
    · rw [if_neg hex]
      unfold advance_position
      intro i hi hnw
      simp only
      by_cases hw2 : (if g.mask_keyspace ≤ t.current_mask_idx + 1 then
          t.current_word_idx + 1 else t.current_word_idx) < g.word_count
      · rw [if_pos hw2]
        exact i2d_entry_lt g.positions _ i hi hnw (hgetD i hi hnw)
      · rw [if_neg hw2]
        exact hinv i hi hnw
  · intro hok
    unfold thread_seek at hok ⊢
    by_cases h : g.total_keyspace ≤ offset
    · rw [if_pos h] at hok
      simp at hok
    · rw [if_neg h]
      intro i hi hnw
      exact i2d_entry_lt g.positions _ i hi hnw (hgetD i hi hnw)

/-- Witness for C9: pattern `?d?W` with a cursor holding an arbitrary valid
digit array, next and an accepted seek. -/
theorem cursor_digits_in_bounds_witness :
    cursorInv [⟨POS_DIGIT, 0, CHARSET_DIGIT⟩, ⟨POS_WORD, 0, []⟩]
      (thread_init_cursor ⟨[⟨POS_DIGIT, 0, CHARSET_DIGIT⟩, ⟨POS_WORD, 0, []⟩], 1, 3,
        10, 30, [0, 2, 4], [1, 1, 1]⟩) ∧
    cursorInv [⟨POS_DIGIT, 0, CHARSET_DIGIT⟩, ⟨POS_WORD, 0, []⟩]
      (thread_next ⟨[⟨POS_DIGIT, 0, CHARSET_DIGIT⟩, ⟨POS_WORD, 0, []⟩], 1, 3,
        10, 30, [0, 2, 4], [1, 1, 1]⟩ ⟨0, 3, 3, [3, 0]⟩ [97, 10, 98, 10, 99]).2 := by
  have h := cursor_digits_in_bounds
    ⟨[⟨POS_DIGIT, 0, CHARSET_DIGIT⟩, ⟨POS_WORD, 0, []⟩], 1, 3, 10, 30,
      [0, 2, 4], [1, 1, 1]⟩ [97, 10, 98, 10, 99] ⟨0, 3, 3, [3, 0]⟩ 0 (by decide)
  exact ⟨h.1, h.2.1 (by decide)⟩

/-! ### Mixed-radix bijection (C3) -/

theorem i2d_go_snd (ps : List pattern_position) (m : Nat)
    (h : ∀ p ∈ ps, p.type ≠ POS_WORD → 1 ≤ p.charset.length) :
    (i2d_go ps m).2 = m / maskProd ps := by
  induction ps generalizing m with
  | nil => simp [i2d_go, maskProd]
  | cons p rest ih =>
    have hrest := fun q hq => h q (List.mem_cons_of_mem _ hq)
    by_cases hw : p.type = POS_WORD
    · have e1 : (i2d_go (p :: rest) m).2 = (i2d_go rest m).2 := by
        simp [i2d_go, hw]
      have e2 : maskProd (p :: rest) = maskProd rest := by simp [maskProd, hw]
      rw [e1, e2]
      exact ih m hrest
    · have e1 : (i2d_go (p :: rest) m).2 = (i2d_go rest m).2 / p.charset.length := by
        simp [i2d_go, hw]
      have e2 : maskProd (p :: rest) = p.charset.length * maskProd rest := by
        simp [maskProd, hw]
      rw [e1, e2, ih m hrest, Nat.div_div_eq_div_mul, Nat.mul_comm]

theorem i2d_mod (ps : List pattern_position) (m : Nat)
    (h : ∀ p ∈ ps, p.type ≠ POS_WORD → 1 ≤ p.charset.length) :
    index_to_mask_indices ps m = index_to_mask_indices ps (m % maskProd ps) := by
  induction ps generalizing m with
  | nil => simp [index_to_mask_indices, i2d_go]
  | cons p rest ih =>
    have hrest := fun q hq => h q (List.mem_cons_of_mem _ hq)
    rw [index_to_mask_indices_cons, index_to_mask_indices_cons]
    by_cases hw : p.type = POS_WORD
    · rw [if_pos hw, if_pos hw]
      have hmp : maskProd (p :: rest) = maskProd rest := by simp [maskProd, hw]
      rw [hmp, ih m hrest, ih (m % maskProd rest) hrest,
          Nat.mod_mod_of_dvd _ (dvd_refl _)]
    · rw [if_neg hw, if_neg hw]
      have hmp : maskProd (p :: rest) = p.charset.length * maskProd rest := by
        simp [maskProd, hw]
      rw [hmp]
      have hdvd : maskProd rest ∣ p.charset.length * maskProd rest :=
        dvd_mul_left _ _
      congr 1
      · rw [i2d_go_snd rest m hrest,
            i2d_go_snd rest (m % (p.charset.length * maskProd rest)) hrest,
            Nat.mul_comm p.charset.length (maskProd rest),
            Nat.mod_mul_right_div_self, Nat.mod_mod_of_dvd _ (dvd_refl _)]
      · rw [ih m hrest, ih (m % (p.charset.length * maskProd rest)) hrest,
            Nat.mod_mod_of_dvd _ hdvd]

theorem d2i_i2d (ps : List pattern_position)
    (h : ∀ p ∈ ps, p.type ≠ POS_WORD → 1 ≤ p.charset.length) :
    ∀ m, m < maskProd ps →
      digits_to_index ps (index_to_mask_indices ps m) = m := by
  induction ps with
  | nil =>
    intro m hm
    simp [maskProd] at hm
    simp [digits_to_index, hm]
  | cons p rest ih =>
    intro m hm
    have hrest := fun q hq => h q (List.mem_cons_of_mem _ hq)
    have hP : 1 ≤ maskProd rest := maskProd_pos rest hrest
    rw [index_to_mask_indices_cons]
    by_cases hw : p.type = POS_WORD
    · have hmp : maskProd (p :: rest) = maskProd rest := by simp [maskProd, hw]
      rw [hmp] at hm
      simp only [if_pos hw, digits_to_index, List.tail_cons]
      exact ih hrest m hm
    · have hmp : maskProd (p :: rest) = p.charset.length * maskProd rest := by
        simp [maskProd, hw]
      rw [hmp] at hm
      have hdlt : m / maskProd rest < p.charset.length :=
        (Nat.div_lt_iff_lt_mul (by omega : 0 < maskProd rest)).mpr hm
      simp only [if_neg hw, digits_to_index, List.tail_cons, List.headD_cons]
      rw [i2d_go_snd rest m hrest, Nat.mod_eq_of_lt hdlt]
      rw [i2d_mod rest m hrest]
      rw [ih hrest (m % maskProd rest) (Nat.mod_lt _ (by omega))]
      rw [Nat.mul_comm]
      exact Nat.div_add_mod m (maskProd rest)

theorem valid_i2d (ps : List pattern_position) (m : Nat)
    (h : ∀ p ∈ ps, p.type ≠ POS_WORD → 1 ≤ p.charset.length) :
    validDigits ps (index_to_mask_indices ps m) = true := by
  induction ps generalizing m with
  | nil => simp [index_to_mask_indices, i2d_go, validDigits]
  | cons p rest ih =>
    have hrest := fun q hq => h q (List.mem_cons_of_mem _ hq)
    rw [index_to_mask_indices_cons]
    by_cases hw : p.type = POS_WORD
    · simp [validDigits, hw, ih m hrest]
    · have hc : 1 ≤ p.charset.length := h p (List.mem_cons_self _ _) hw
      simp [validDigits, hw, ih m hrest]
      exact Nat.mod_lt _ (by omega)

theorem i2d_d2i (ps : List pattern_position)
    (h : ∀ p ∈ ps, p.type ≠ POS_WORD → 1 ≤ p.charset.length) :
    ∀ ds, validDigits ps ds = true →
      index_to_mask_indices ps (digits_to_index ps ds) = ds ∧
      digits_to_index ps ds < maskProd ps := by
  induction ps with
  | nil =>
    intro ds hv
    cases ds with
    | nil => simp [index_to_mask_indices, i2d_go, digits_to_index, maskProd]
    | cons d ds => simp [validDigits] at hv
  | cons p rest ih =>
    intro ds hv
    have hrest := fun q hq => h q (List.mem_cons_of_mem _ hq)
    have hP : 1 ≤ maskProd rest := maskProd_pos rest hrest
    cases ds with
    | nil => simp [validDigits] at hv
    | cons d ds =>
      rw [validDigits, Bool.and_eq_true] at hv
      rcases hv with ⟨hd, hvrest⟩
      rcases ih hrest ds hvrest with ⟨e, lt⟩
      by_cases hw : p.type = POS_WORD
      · rw [if_pos hw] at hd
        have hd0 : d = 0 := by simpa using hd
        have hval : digits_to_index (p :: rest) (d :: ds) = digits_to_index rest ds := by
          simp [digits_to_index, hw]
        have hmp : maskProd (p :: rest) = maskProd rest := by simp [maskProd, hw]
        rw [hval, hmp, index_to_mask_indices_cons, if_pos hw, e, hd0]
        exact ⟨rfl, lt⟩
      · rw [if_neg hw] at hd
        have hdc : d < p.charset.length := by simpa using hd
        have hval : digits_to_index (p :: rest) (d :: ds) =
            d * maskProd rest + digits_to_index rest ds := by
          simp [digits_to_index, hw]
        have hmp : maskProd (p :: rest) = p.charset.length * maskProd rest := by
          simp [maskProd, hw]
        have hvmod : (d * maskProd rest + digits_to_index rest ds) % maskProd rest =
            digits_to_index rest ds := by
          rw [Nat.add_comm, Nat.add_mul_mod_self_right, Nat.mod_eq_of_lt lt]
        have hvdiv : (d * maskProd rest + digits_to_index rest ds) / maskProd rest = d := by
          rw [Nat.add_comm, Nat.add_mul_div_right _ _ (by omega : 0 < maskProd rest),
              Nat.div_eq_of_lt lt]
          omega
        constructor
        · rw [hval, index_to_mask_indices_cons, if_neg hw]
          rw [i2d_go_snd rest _ hrest, hvdiv, Nat.mod_eq_of_lt hdc]
          rw [i2d_mod rest _ hrest, hvmod, e]
        · rw [hval, hmp]
          have h1 : (d + 1) * maskProd rest = d * maskProd rest + maskProd rest := by
            ring
          have h2 : (d + 1) * maskProd rest ≤ p.charset.length * maskProd rest :=
            Nat.mul_le_mul_right _ (by omega)
          omega

/-- C3: `index_to_mask_indices` is the standard odometer decomposition
(last position least significant, word positions fixed at digit 0), and on
the unsaturated domain `[0, maskProd ps)` it is a bijection onto the digit
arrays that are in range at every non-word position: both round trips hold
and the recomposed index stays below the exact mask keyspace. -/
theorem index_to_mask_indices_bijection (ps : List pattern_position)
    (h : ∀ p ∈ ps, p.type ≠ POS_WORD → 1 ≤ p.charset.length) :
    (∀ m, m < maskProd ps →
      digits_to_index ps (index_to_mask_indices ps m) = m ∧
      validDigits ps (index_to_mask_indices ps m) = true) ∧
    (∀ ds, validDigits ps ds = true →
      index_to_mask_indices ps (digits_to_index ps ds) = ds ∧
      digits_to_index ps ds < maskProd ps) :=
  ⟨fun m hm => ⟨d2i_i2d ps h m hm, valid_i2d ps m h⟩, i2d_d2i ps h⟩

/-- Witness for C3 at the pattern `?d?W?s` and mask index 137: the round
trip through the digit array returns 137 and the digits are valid. -/
theorem index_to_mask_indices_bijection_witness :
    digits_to_index
        [⟨POS_DIGIT, 0, CHARSET_DIGIT⟩, ⟨POS_WORD, 0, []⟩, ⟨POS_SPECIAL, 0, CHARSET_SPECIAL⟩]
        (index_to_mask_indices
          [⟨POS_DIGIT, 0, CHARSET_DIGIT⟩, ⟨POS_WORD, 0, []⟩, ⟨POS_SPECIAL, 0, CHARSET_SPECIAL⟩]
          137) = 137 ∧
    validDigits
        [⟨POS_DIGIT, 0, CHARSET_DIGIT⟩, ⟨POS_WORD, 0, []⟩, ⟨POS_SPECIAL, 0, CHARSET_SPECIAL⟩]
        (index_to_mask_indices
          [⟨POS_DIGIT, 0, CHARSET_DIGIT⟩, ⟨POS_WORD, 0, []⟩, ⟨POS_SPECIAL, 0, CHARSET_SPECIAL⟩]
          137) = true :=
  (index_to_mask_indices_bijection _ (by decide)).1 137 (by decide)

/-! ### Candidate generation (C5) -/

theorem suffix_go_length (g : pd_feed_global) (mi : List Nat) :
    ∀ n i out, g.positions.length - i ≤ n → out.length ≤ PW_MAX →
      (suffix_go g mi i out).length =
        out.length + min (g.positions.length - i) (PW_MAX - out.length) := by
  intro n
  induction n with
  | zero =>
    intro i out hn hout
    have hi : ¬i < g.positions.length := by omega
    rw [suffix_go, if_neg hi]
    omega
  | succ n ih =>
    intro i out hn hout
    by_cases hi : i < g.positions.length
    · by_cases hfull : PW_MAX ≤ out.length
      · rw [suffix_go, if_pos hi, if_pos hfull]
        omega
      · rw [suffix_go, if_pos hi, if_neg hfull]
        rw [ih (i + 1) _ (by omega) (by simp; omega)]
        simp only [List.length_append, List.length_cons, List.length_nil]
        omega
    · rw [suffix_go, if_neg hi]
      omega

theorem suffix_go_append (g : pd_feed_global) (mi : List Nat) :
    ∀ n i out, g.positions.length - i ≤ n →
      ∃ s, suffix_go g mi i out = out ++ s := by
  intro n
  induction n with
  | zero =>
    intro i out hn
    have hi : ¬i < g.positions.length := by omega
    rw [suffix_go, if_neg hi]
    exact ⟨[], by simp⟩
  | succ n ih =>
    intro i out hn
    by_cases hi : i < g.positions.length
    · by_cases hfull : PW_MAX ≤ out.length
      · rw [suffix_go, if_pos hi, if_pos hfull]
        exact ⟨[], by simp⟩
      · rw [suffix_go, if_pos hi, if_neg hfull]
        rcases ih (i + 1)
          (out ++ [(g.positions.getD i dummy_position).charset.getD (mi.getD i 0) 0])
          (by omega) with ⟨s, hs⟩
        exact ⟨[(g.positions.getD i dummy_position).charset.getD (mi.getD i 0) 0] ++ s,
          by rw [hs, List.append_assoc]⟩
    · rw [suffix_go, if_neg hi]
      exact ⟨[], by simp⟩

theorem gen_pre_length (g : pd_feed_global) (mi : List Nat) :
    (gen_pre g mi).length = g.word_position := by
  simp [gen_pre]

theorem generate_candidate_parts (g : pd_feed_global) (t : pd_feed_thread)
    (data : List Nat)
    (hwp : g.word_position < g.positions.length)
    (hnum : g.positions.length ≤ PATTERN_MAX_POSITIONS) :
    (generate_candidate g t data).length ≤ PW_MAX ∧
    (generate_candidate g t data).length =
      g.word_position +
        min (g.word_lengths.getD t.current_word_idx 0) (PW_MAX - g.word_position) +
        min (g.positions.length - (g.word_position + 1))
          (PW_MAX -
            (g.word_position +
              min (g.word_lengths.getD t.current_word_idx 0)
                (PW_MAX - g.word_position))) ∧
    (generate_candidate g t data).take g.word_position = gen_pre g t.mask_indices ∧
    ((generate_candidate g t data).drop g.word_position).take
        (min (g.word_lengths.getD t.current_word_idx 0) (PW_MAX - g.word_position)) =
      (List.range
          (min (g.word_lengths.getD t.current_word_idx 0) (PW_MAX - g.word_position))).map
        (fun j => data.getD (g.word_offsets.getD t.current_word_idx 0 + j) 0) ∧
    min (g.word_lengths.getD t.current_word_idx 0) (PW_MAX - g.word_position) ≤
      g.word_lengths.getD t.current_word_idx 0 := by
  have hwp256 : g.word_position ≤ PW_MAX := by
    unfold PATTERN_MAX_POSITIONS at hnum
    unfold PW_MAX
    omega
  have hif : (if PW_MAX < (gen_pre g t.mask_indices).length +
        g.word_lengths.getD t.current_word_idx 0 then
        PW_MAX - (gen_pre g t.mask_indices).length
      else g.word_lengths.getD t.current_word_idx 0) =
      min (g.word_lengths.getD t.current_word_idx 0) (PW_MAX - g.word_position) := by
    rw [gen_pre_length]
    split <;> omega
  have hgc : generate_candidate g t data =
      suffix_go g t.mask_indices (g.word_position + 1)
        (gen_pre g t.mask_indices ++
          (List.range
              (min (g.word_lengths.getD t.current_word_idx 0)
                (PW_MAX - g.word_position))).map
            (fun j => data.getD (g.word_offsets.getD t.current_word_idx 0 + j) 0)) := by
    simp only [generate_candidate]
    rw [hif]
  have hwordlen : ((List.range
      (min (g.word_lengths.getD t.current_word_idx 0) (PW_MAX - g.word_position))).map
      (fun j => data.getD (g.word_offsets.getD t.current_word_idx 0 + j) 0)).length =
      min (g.word_lengths.getD t.current_word_idx 0) (PW_MAX - g.word_position) := by
    simp
  have hlen0 : (gen_pre g t.mask_indices ++
      (List.range
          (min (g.word_lengths.getD t.current_word_idx 0) (PW_MAX - g.word_position))).map
        (fun j => data.getD (g.word_offsets.getD t.current_word_idx 0 + j) 0)).length =
      g.word_position +
        min (g.word_lengths.getD t.current_word_idx 0) (PW_MAX - g.word_position) := by
    rw [List.length_append, gen_pre_length, hwordlen]
  have hlen0le : g.word_position +
      min (g.word_lengths.getD t.current_word_idx 0) (PW_MAX - g.word_position) ≤
      PW_MAX := by omega
  have hlen := suffix_go_length g t.mask_indices g.positions.length (g.word_position + 1)
    (gen_pre g t.mask_indices ++
      (List.range
          (min (g.word_lengths.getD t.current_word_idx 0) (PW_MAX - g.word_position))).map
        (fun j => data.getD (g.word_offsets.getD t.current_word_idx 0 + j) 0))
    (by omega) (by rw [hlen0]; exact hlen0le)
  rcases suffix_go_append g t.mask_indices g.positions.length (g.word_position + 1)
    (gen_pre g t.mask_indices ++
      (List.range
          (min (g.word_lengths.getD t.current_word_idx 0) (PW_MAX - g.word_position))).map
        (fun j => data.getD (g.word_offsets.getD t.current_word_idx 0 + j) 0))
    (by omega) with ⟨s, hs⟩
  rw [hgc]
  refine ⟨?_, ?_, ?_, ?_, Nat.min_le_left _ _⟩
  · rw [hlen, hlen0]
    omega
  · rw [hlen, hlen0]
  · rw [hs, List.append_assoc]
    exact List.take_left' (gen_pre_length g t.mask_indices)
  · rw [hs, List.append_assoc]
    rw [List.drop_left' (gen_pre_length g t.mask_indices)]
    exact List.take_left' hwordlen

/-- C5: for every global state whose word position lies inside a position
list of at most `PATTERN_MAX_POSITIONS` entries, `generate_candidate`
writes at most `PW_MAX` bytes (the returned list's length is exactly the C
function's return value): the full prefix is emitted, then exactly
`min word_len (PW_MAX - prefix)` word bytes read from the word's offset —
never past its recorded length — then suffix characters only while the
total stays below `PW_MAX`, as captured by the exact length formula. -/
theorem generate_candidate_spec (g : pd_feed_global) (t : pd_feed_thread)
    (data : List Nat)
    (hwp : g.word_position < g.positions.length)
    (hnum : g.positions.length ≤ PATTERN_MAX_POSITIONS) :
    (generate_candidate g t data).length ≤ PW_MAX ∧
    (generate_candidate g t data).length =
      g.word_position +
        min (g.word_lengths.getD t.current_word_idx 0) (PW_MAX - g.word_position) +
        min (g.positions.length - (g.word_position + 1))
          (PW_MAX -
            (g.word_position +
              min (g.word_lengths.getD t.current_word_idx 0)
                (PW_MAX - g.word_position))) ∧
    (generate_candidate g t data).take g.word_position = gen_pre g t.mask_indices ∧
    ((generate_candidate g t data).drop g.word_position).take
        (min (g.word_lengths.getD t.current_word_idx 0) (PW_MAX - g.word_position)) =
      (List.range
          (min (g.word_lengths.getD t.current_word_idx 0) (PW_MAX - g.word_position))).map
        (fun j => data.getD (g.word_offsets.getD t.current_word_idx 0 + j) 0) ∧
    min (g.word_lengths.getD t.current_word_idx 0) (PW_MAX - g.word_position) ≤
      g.word_lengths.getD t.current_word_idx 0 :=
  generate_candidate_parts g t data hwp hnum

/-- Witness for C5: pattern `?d?W?s` over the single word "password" — the
word fully fits and the full prefix is emitted. -/
theorem generate_candidate_spec_witness :
    (generate_candidate
        ⟨[⟨POS_DIGIT, 0, CHARSET_DIGIT⟩, ⟨POS_WORD, 0, []⟩, ⟨POS_SPECIAL, 0, CHARSET_SPECIAL⟩],
         1, 1, 330, 330, [0], [8]⟩
        ⟨0, 0, 0, [0, 0, 0]⟩
        [112, 97, 115, 115, 119, 111, 114, 100]).length ≤ PW_MAX ∧
    (generate_candidate
        ⟨[⟨POS_DIGIT, 0, CHARSET_DIGIT⟩, ⟨POS_WORD, 0, []⟩, ⟨POS_SPECIAL, 0, CHARSET_SPECIAL⟩],
         1, 1, 330, 330, [0], [8]⟩
        ⟨0, 0, 0, [0, 0, 0]⟩
        [112, 97, 115, 115, 119, 111, 114, 100]).take 1 =
      gen_pre
        ⟨[⟨POS_DIGIT, 0, CHARSET_DIGIT⟩, ⟨POS_WORD, 0, []⟩, ⟨POS_SPECIAL, 0, CHARSET_SPECIAL⟩],
         1, 1, 330, 330, [0], [8]⟩ [0, 0, 0] := by
  have h := generate_candidate_spec
    ⟨[⟨POS_DIGIT, 0, CHARSET_DIGIT⟩, ⟨POS_WORD, 0, []⟩, ⟨POS_SPECIAL, 0, CHARSET_SPECIAL⟩],
     1, 1, 330, 330, [0], [8]⟩
    ⟨0, 0, 0, [0, 0, 0]⟩
    [112, 97, 115, 115, 119, 111, 114, 100] (by decide) (by decide)
  exact ⟨h.1, h.2.2.1⟩


/-! ### Word placeholder uniqueness (C6) -/

theorem wCount_cons_ne (c : Char) (rest : List Char) (hc : c ≠ '?') :
    wCount (c :: rest) = wCount rest := by
  cases rest with
  | nil => simp [wCount, hc]
  | cons s r => simp [wCount, hc]

theorem pp_go_ok_wcount (customs : List (Option (List Nat))) :
    ∀ (pat : List Char) (acc : List pattern_position) (found : Bool) (wp : Nat),
      ∀ pr, pp_go customs pat acc found wp = Except.ok pr →
        wCount pat = (if found then 0 else 1) := by
  intro pat acc found wp
  induction pat, acc, found, wp using pp_go.induct customs
  case case3 c rest1 acc found wp hlen =>
    intro pr hok
    rw [pp_go.eq_def] at hok
    dsimp only at hok
    rw [if_pos hlen] at hok
    exact absurd hok (by simp)
  case case25 c rest1 acc found wp hlen hc ih =>
    intro pr hok
    rw [pp_go.eq_def] at hok
    dsimp only at hok
    rw [if_neg (by omega : ¬PATTERN_MAX_POSITIONS ≤ acc.length), if_neg hc] at hok
    rw [wCount_cons_ne c rest1 hc]
    exact ih pr hok
  all_goals intro pr hok
  all_goals simp only [pp_go] at hok
  all_goals repeat' split at hok
  all_goals simp_all [wCount]

theorem pp_go_missing_wcount (customs : List (Option (List Nat))) :
    ∀ (pat : List Char) (acc : List pattern_position) (found : Bool) (wp : Nat),
      pp_go customs pat acc found wp = Except.error pd_error.WordPlaceholderMissing →
        found = false ∧ wCount pat = 0 := by
  intro pat acc found wp
  induction pat, acc, found, wp using pp_go.induct customs
  case case3 c rest1 acc found wp hlen =>
    intro hok
    rw [pp_go.eq_def] at hok
    dsimp only at hok
    rw [if_pos hlen] at hok
    exact absurd hok (by simp)
  case case25 c rest1 acc found wp hlen hc ih =>
    intro hok
    rw [pp_go.eq_def] at hok
    dsimp only at hok
    rw [if_neg (by omega : ¬PATTERN_MAX_POSITIONS ≤ acc.length), if_neg hc] at hok
    rw [wCount_cons_ne c rest1 hc]
    exact ih hok
  all_goals intro hok
  all_goals simp only [pp_go] at hok
  all_goals repeat' split at hok
  all_goals simp_all [wCount]

theorem pp_go_dup_wcount (customs : List (Option (List Nat))) :
    ∀ (pat : List Char) (acc : List pattern_position) (found : Bool) (wp : Nat),
      pp_go customs pat acc found wp = Except.error pd_error.WordPlaceholderDuplicated →
        (if found then 1 else 2) ≤ wCount pat := by
  intro pat acc found wp
  induction pat, acc, found, wp using pp_go.induct customs
  case case3 c rest1 acc found wp hlen =>
    intro hok
    rw [pp_go.eq_def] at hok
    dsimp only at hok
    rw [if_pos hlen] at hok
    exact absurd hok (by simp)
  case case25 c rest1 acc found wp hlen hc ih =>
    intro hok
    rw [pp_go.eq_def] at hok
    dsimp only at hok
    rw [if_neg (by omega : ¬PATTERN_MAX_POSITIONS ≤ acc.length), if_neg hc] at hok
    rw [wCount_cons_ne c rest1 hc]
    exact ih hok
  all_goals intro hok
  all_goals simp only [pp_go] at hok
  all_goals repeat' split at hok
  all_goals simp_all [wCount]
  all_goals omega

/-- C6: pattern compilation requires exactly one parse-level `?W` escape:
a successful parse implies the scan saw exactly one, the missing-placeholder
error occurs exactly on scans that saw none, the duplicate error implies at
least two, and the pattern `??W` — a literal `?` followed by a literal `W`,
since `?W` only fires on the two exact characters — contains zero word
placeholders and fails with the missing-placeholder error. -/
theorem parse_pattern_exactly_one_word (customs : List (Option (List Nat)))
    (pat : List Char) :
    (∀ pr, parse_pattern customs pat = Except.ok pr → wCount pat = 1) ∧
    (parse_pattern customs pat = Except.error pd_error.WordPlaceholderMissing →
      wCount pat = 0) ∧
    (parse_pattern customs pat = Except.error pd_error.WordPlaceholderDuplicated →
      2 ≤ wCount pat) ∧
    parse_pattern customs ['?', '?', 'W'] =
      Except.error pd_error.WordPlaceholderMissing := by
  refine ⟨?_, ?_, ?_, ?_⟩
  · intro pr hok
    have := pp_go_ok_wcount customs pat [] false 4294967295 pr hok
    simpa using this
  · intro herr
    exact (pp_go_missing_wcount customs pat [] false 4294967295 herr).2
  · intro herr
    have := pp_go_dup_wcount customs pat [] false 4294967295 herr
    simpa using this
  · rfl

/-- Witness for C6: `?d?W` parses with one placeholder; `??W` is rejected
as missing its word placeholder. -/
theorem parse_pattern_exactly_one_word_witness :
    wCount ['?', 'd', '?', 'W'] = 1 ∧
    parse_pattern emptyCustoms ['?', '?', 'W'] =
      Except.error pd_error.WordPlaceholderMissing := by
  have h := parse_pattern_exactly_one_word emptyCustoms ['?', 'd', '?', 'W']
  exact ⟨h.1 ⟨[⟨POS_DIGIT, 0, CHARSET_DIGIT⟩, ⟨POS_WORD, 0, []⟩], 1, 1, 0⟩ (by rfl),
    h.2.2.2⟩

/-! ### Word index construction (C7) -/

theorem countNl_append (l1 l2 : List Nat) :
    countNl (l1 ++ l2) = countNl l1 + countNl l2 := by
  induction l1 with
  | nil => simp [countNl]
  | cons a l ih =>
    rw [List.cons_append, countNl, countNl, ih]
    omega

theorem countNl_eq_zero (l : List Nat) (h : ∀ b ∈ l, b ≠ 10) : countNl l = 0 := by
  induction l with
  | nil => rfl
  | cons a l ih =>
    have ha := h a (List.mem_cons_self _ _)
    simp only [countNl, if_neg ha, Nat.zero_add]
    exact ih (fun b hb => h b (List.mem_cons_of_mem _ hb))

theorem takeWhile_append_all (p : Nat → Bool) (l1 l2 : List Nat)
    (h : ∀ b ∈ l1, p b) :
    (l1 ++ l2).takeWhile p = l1 ++ l2.takeWhile p := by
  induction l1 with
  | nil => simp
  | cons a l ih =>
    have ha := h a (List.mem_cons_self _ _)
    simp only [List.cons_append, List.takeWhile_cons, ha, if_pos]
    rw [ih (fun b hb => h b (List.mem_cons_of_mem _ hb))]

theorem dropWhile_append_all (p : Nat → Bool) (l1 l2 : List Nat)
    (h : ∀ b ∈ l1, p b) :
    (l1 ++ l2).dropWhile p = l2.dropWhile p := by
  induction l1 with
  | nil => simp
  | cons a l ih =>
    have ha := h a (List.mem_cons_self _ _)
    simp only [List.cons_append, List.dropWhile_cons, ha, if_pos]
    exact ih (fun b hb => h b (List.mem_cons_of_mem _ hb))

theorem takeWhile_ne_nl (rest : List Nat) :
    ∀ b ∈ rest.takeWhile (fun b => b ≠ 10), b ≠ 10 := by
  intro b hb
  have := List.mem_takeWhile_imp hb
  simpa using this

theorem dropWhile_head_not (p : Nat → Bool) (l : List Nat) (b : Nat) (tl : List Nat)
    (h : l.dropWhile p = b :: tl) : ¬p b = true := by
  induction l with
  | nil => cases h
  | cons a l ih =>
    rw [List.dropWhile_cons] at h
    by_cases hp : p a
    · rw [if_pos hp] at h
      exact ih h
    · rw [if_neg hp] at h
      injection h with h1 h2
      subst h1
      exact hp

/-- Unfolding of `spec_go` when the remaining buffer contains no newline:
a single final unterminated line. -/
theorem spec_go_last (start : Nat) (rest : List Nat) (hne : rest ≠ [])
    (hdw : rest.dropWhile (fun b => b ≠ 10) = []) :
    spec_go start rest = [(start, trimLen (rest.takeWhile (fun b => b ≠ 10)))] := by
  rw [spec_go, if_neg hne]
  split
  · rfl
  · rename_i heq
    rw [hdw] at heq
    cases heq

/-- Unfolding of `spec_go` at a newline-terminated first line. -/
theorem spec_go_cons (start : Nat) (rest : List Nat) (b : Nat) (tail : List Nat)
    (hne : rest ≠ [])
    (hdw : rest.dropWhile (fun b => b ≠ 10) = b :: tail) :
    spec_go start rest =
      (start, trimLen (rest.takeWhile (fun b => b ≠ 10))) ::
        spec_go (start + (rest.takeWhile (fun b => b ≠ 10)).length + 1) tail := by
  rw [spec_go, if_neg hne]
  split
  · rename_i heq
    rw [hdw] at heq
    cases heq
  · rename_i x tl heq
    rw [hdw] at heq
    cases heq
    rfl

theorem spec_go_length :
    ∀ (n : Nat) (rest : List Nat), rest.length ≤ n → ∀ start,
      (spec_go start rest).length = count_words rest := by
  intro n
  induction n using Nat.strong_induction_on with
  | _ n ih =>
    intro rest hn start
    by_cases hne : rest = []
    · subst hne
      simp [spec_go, count_words, countNl]
    · have hsplit := List.takeWhile_append_dropWhile (fun b => b ≠ 10) rest
      cases hdw : rest.dropWhile (fun b => b ≠ 10) with
      | nil =>
        rw [spec_go_last start rest hne hdw]
        rw [hdw, List.append_nil] at hsplit
        have hcnt : countNl rest = 0 := by
          rw [← hsplit]
          exact countNl_eq_zero _ (takeWhile_ne_nl rest)
        have hlast : rest.getLast? ≠ some 10 := by
          intro hl
          have hmem : (10 : Nat) ∈ rest := List.mem_of_mem_getLast? hl
          rw [← hsplit] at hmem
          exact takeWhile_ne_nl rest 10 hmem rfl
        simp [count_words, hcnt, hne, hlast]
      | cons b tail =>
        have hb10 : b = 10 := by
          have hnp := dropWhile_head_not (fun b => b ≠ 10) rest b tail hdw
          simpa using hnp
        subst hb10
        rw [spec_go_cons start rest 10 tail hne hdw]
        rw [hdw] at hsplit
        have htail : tail.length < rest.length := by
          have hlen := congrArg List.length hsplit
          rw [List.length_append, List.length_cons] at hlen
          omega
        have hcnt : countNl rest = 1 + countNl tail := by
          rw [← hsplit, countNl_append,
              countNl_eq_zero _ (takeWhile_ne_nl rest)]
          simp [countNl]
        rw [List.length_cons,
            ih tail.length (by omega) tail (le_refl _)
              (start + (rest.takeWhile (fun b => b ≠ 10)).length + 1)]
        by_cases htne : tail = []
        · subst htne
          have hlast : rest.getLast? = some 10 := by
            rw [← hsplit, List.getLast?_append_of_ne_nil _ (by simp)]
            rfl
          simp [count_words, hcnt, hlast, countNl]
        · have hlast : rest.getLast? = tail.getLast? := by
            rw [← hsplit]
            rw [show rest.takeWhile (fun b => b ≠ 10) ++ 10 :: tail =
              (rest.takeWhile (fun b => b ≠ 10) ++ [10]) ++ tail by simp]
            exact List.getLast?_append_of_ne_nil _ htne
          unfold count_words
          rw [hcnt, hlast]
          simp [hne, htne]
          omega

theorem trim_bridge (data : List Nat) (ls L : Nat) (hL : ls + L ≤ data.length) :
    trim_cr_len data ls L = trimLen ((data.drop ls).take L) := by
  have hlen : ((data.drop ls).take L).length = L := by
    simp [List.length_take, List.length_drop]
    omega
  rcases Nat.eq_zero_or_pos L with h0 | hpos
  · subst h0
    simp [trim_cr_len, trimLen]
  · have hidx : ls + L - 1 < data.length := by omega
    have hgl : ((data.drop ls).take L).getLast? = some (data.getD (ls + L - 1) 0) := by
      rw [List.getLast?_eq_getElem?, hlen]
      rw [List.getElem?_take, if_pos (by omega : L - 1 < L)]
      rw [List.getElem?_drop]
      rw [show ls + (L - 1) = ls + L - 1 by omega]
      rw [List.getElem?_eq_getElem hidx, List.getD_eq_getElem _ _ hidx]
    unfold trim_cr_len trimLen
    rw [hgl, hlen]
    by_cases h13 : data.getD (ls + L - 1) 0 = 13
    · rw [if_pos ⟨hpos, h13⟩, if_pos (by rw [h13])]
    · rw [if_neg (by intro hc; exact h13 hc.2), if_neg (by simpa using h13)]


theorem window_all_ne_nl (data : List Nat) (ls e : Nat) (_he : e ≤ data.length)
    (hinv : ∀ j, ls ≤ j → j < e → data.getD j 0 ≠ 10) :
    ∀ b ∈ (data.drop ls).take (e - ls), (fun b => decide (b ≠ 10)) b = true := by
  intro b hb
  rcases List.mem_iff_getElem.mp hb with ⟨k, hk, hbk⟩
  have hk1 : k < e - ls := by
    simp [List.length_take, List.length_drop] at hk
    omega
  have hq : ((data.drop ls).take (e - ls))[k]? = some b := by
    rw [List.getElem?_eq_getElem hk, hbk]
  rw [List.getElem?_take, if_pos hk1, List.getElem?_drop] at hq
  have hgd : data.getD (ls + k) 0 = b := by
    rw [List.getD_eq_getElem?_getD, hq]
    rfl
  have hne := hinv (ls + k) (by omega) (by omega)
  rw [hgd] at hne
  simpa using hne

theorem bwi_loop_eq_spec (data : List Nat) :
    ∀ (n i ls : Nat), data.length - i = n → ls ≤ i → i ≤ data.length →
      (∀ j, ls ≤ j → j < i → data.getD j 0 ≠ 10) →
      bwi_loop data i ls = spec_go ls (data.drop ls) := by
  intro n
  induction n with
  | zero =>
    intro i ls hn hls hi hinv
    have hie : i = data.length := by omega
    subst hie
    rw [bwi_loop, dif_neg (by omega : ¬data.length < data.length)]
    by_cases hlt : ls < data.length
    · have hdlen : (data.drop ls).length = data.length - ls := by simp
      have hne : data.drop ls ≠ [] := by
        intro hnil
        rw [hnil] at hdlen
        simp at hdlen
        omega
      have htake : (data.drop ls).take (data.length - ls) = data.drop ls := by
        rw [← hdlen]
        exact List.take_length _
      have hall := window_all_ne_nl data ls data.length (le_refl _) hinv
      rw [htake] at hall
      have htw : (data.drop ls).takeWhile (fun b => b ≠ 10) = data.drop ls := by
        have h2 := takeWhile_append_all (fun b => decide (b ≠ 10)) (data.drop ls) [] hall
        simpa using h2
      have hdw : (data.drop ls).dropWhile (fun b => b ≠ 10) = [] := by
        have h2 := dropWhile_append_all (fun b => decide (b ≠ 10)) (data.drop ls) [] hall
        simpa using h2
      rw [if_pos hlt, spec_go_last ls (data.drop ls) hne hdw, htw]
      rw [trim_bridge data ls (data.length - ls) (by omega), htake]
    · rw [if_neg hlt]
      have hnil : data.drop ls = [] := List.drop_eq_nil_of_le (by omega)
      rw [hnil, spec_go]
      simp
  | succ n ih =>
    intro i ls hn hls hi hinv
    have hilt : i < data.length := by omega
    rw [bwi_loop, dif_pos hilt]
    by_cases hb : data.getD i 0 = 10
    · rw [if_pos hb]
      have hdecomp : data.drop ls = (data.drop ls).take (i - ls) ++ data.drop i := by
        conv_lhs => rw [← List.take_append_drop (i - ls) (data.drop ls)]
        congr 1
        rw [List.drop_drop]
        congr 1
        omega
      have hdropi : data.drop i = 10 :: data.drop (i + 1) := by
        rw [List.drop_eq_getElem_cons hilt]
        congr 1
        rw [← List.getD_eq_getElem data 0 hilt]
        exact hb
      have hseglen : ((data.drop ls).take (i - ls)).length = i - ls := by
        simp [List.length_take, List.length_drop]
        omega
      have hall := window_all_ne_nl data ls i (by omega) hinv
      have hne : data.drop ls ≠ [] := by
        intro hnil
        have hl0 := congrArg List.length hnil
        simp at hl0
        omega
      have htw : (data.drop ls).takeWhile (fun b => b ≠ 10) =
          (data.drop ls).take (i - ls) := by
        conv_lhs => rw [hdecomp]
        rw [takeWhile_append_all _ _ _ hall, hdropi, List.takeWhile_cons]
        simp
      have hdw : (data.drop ls).dropWhile (fun b => b ≠ 10) =
          10 :: data.drop (i + 1) := by
        conv_lhs => rw [hdecomp]
        rw [dropWhile_append_all _ _ _ hall, hdropi, List.dropWhile_cons]
        simp
      rw [spec_go_cons ls (data.drop ls) 10 (data.drop (i + 1)) hne hdw, htw, hseglen]
      rw [show ls + (i - ls) + 1 = i + 1 by omega]
      rw [trim_bridge data ls (i - ls) (by omega)]
      congr 1
      exact ih (i + 1) (i + 1) (by omega) (le_refl _) (by omega)
        (by intro j h1 h2; omega)
    · rw [if_neg hb]
      refine ih (i + 1) ls (by omega) (by omega) (by omega) ?_
      intro j h1 h2
      rcases Nat.lt_or_ge j i with hj | hj
      · exact hinv j h1 hj
      · have hje : j = i := by omega
        subst hje
        exact hb

/-- C7: pass 2 of the word-index build records exactly as many entries as
pass 1 counts (newlines, plus one for a non-empty buffer not ending in a
newline), and the entries are exactly the spec-side line table: each line's
start offset with its length excluding the terminating newline and one
trailing carriage return; a zero count fails with the empty-wordlist error
(and only then), and otherwise — within the allocation capacity — the build
succeeds with that table. -/
theorem build_word_index_spec (data : List Nat) :
    (bwi_loop data 0 0).length = count_words data ∧
    bwi_loop data 0 0 = spec_lines data ∧
    (build_word_index data = Except.error pd_error.EmptyWordlist ↔
      count_words data = 0) ∧
    (count_words data ≠ 0 → count_words data ≤ SIZE_MAX / 8 →
      build_word_index data = Except.ok (spec_lines data)) := by
  have heq : bwi_loop data 0 0 = spec_lines data := by
    have h := bwi_loop_eq_spec data data.length 0 0 (by omega) (le_refl 0)
      (by omega) (by intro j h1 h2; omega)
    simpa [spec_lines] using h
  have hlen : (bwi_loop data 0 0).length = count_words data := by
    rw [heq, spec_lines]
    exact spec_go_length data.length data (le_refl _) 0
  refine ⟨hlen, heq, ?_, ?_⟩
  · simp only [build_word_index]
    constructor
    · intro h
      by_cases h0 : count_words data = 0
      · exact h0
      · rw [if_neg h0] at h
        by_cases hc : SIZE_MAX / 8 < count_words data
        · rw [if_pos hc] at h
          exact absurd h (by simp)
        · rw [if_neg hc] at h
          exact absurd h (by simp)
    · intro h0
      rw [if_pos h0]
  · intro h0 hc
    simp only [build_word_index]
    rw [if_neg h0, if_neg (by omega), heq]

/-- Witness for C7 at the buffer "a\r\n\nb": three lines, entries
(0, 1), (3, 0), (4, 1). -/
theorem build_word_index_spec_witness :
    count_words [97, 13, 10, 10, 98] = 3 ∧
    build_word_index [97, 13, 10, 10, 98] =
      Except.ok (spec_lines [97, 13, 10, 10, 98]) ∧
    spec_lines [97, 13, 10, 10, 98] = [(0, 1), (3, 0), (4, 1)] := by
  have h := build_word_index_spec [97, 13, 10, 10, 98]
  refine ⟨by decide, h.2.2.2 (by decide) (by decide), ?_⟩
  rw [← h.2.1]
  repeat (rw [bwi_loop]; norm_num [trim_cr_len])

/-! ### Enumeration exhaustion (C4) -/

theorem divmod_succ_lt (k mk : Nat) (hmk : 0 < mk) (h : k % mk + 1 < mk) :
    (k + 1) / mk = k / mk ∧ (k + 1) % mk = k % mk + 1 := by
  have hdm := Nat.div_add_mod k mk
  have hk1 : k + 1 = k % mk + 1 + mk * (k / mk) := by omega
  constructor
  · rw [hk1, Nat.add_mul_div_left _ _ hmk, Nat.div_eq_of_lt h]
    omega
  · rw [hk1, Nat.add_mul_mod_self_left, Nat.mod_eq_of_lt h]

theorem divmod_succ_eq (k mk : Nat) (hmk : 0 < mk) (h : k % mk + 1 = mk) :
    (k + 1) / mk = k / mk + 1 ∧ (k + 1) % mk = 0 := by
  have hdm := Nat.div_add_mod k mk
  have hk1 : k + 1 = mk * (k / mk + 1) := by
    have : mk * (k / mk + 1) = mk * (k / mk) + mk := by ring
    omega
  constructor
  · rw [hk1, Nat.mul_div_cancel_left _ hmk]
  · rw [hk1, Nat.mul_mod_right]

theorem advance_position_eq (g : pd_feed_global) (t : pd_feed_thread) (k : Nat)
    (hmk : 0 < g.mask_keyspace)
    (hw : t.current_word_idx = k / g.mask_keyspace)
    (hm : t.current_mask_idx = k % g.mask_keyspace) :
    (advance_position g t).current_word_idx = (k + 1) / g.mask_keyspace ∧
    (advance_position g t).current_mask_idx = (k + 1) % g.mask_keyspace ∧
    (advance_position g t).mask_indices =
      (if (k + 1) / g.mask_keyspace < g.word_count then
        index_to_mask_indices g.positions ((k + 1) % g.mask_keyspace)
      else t.mask_indices) := by
  have hmodlt : k % g.mask_keyspace < g.mask_keyspace := Nat.mod_lt _ hmk
  simp only [advance_position, hw, hm]
  by_cases hro : g.mask_keyspace ≤ k % g.mask_keyspace + 1
  · rcases divmod_succ_eq k g.mask_keyspace hmk (by omega) with ⟨hd, hmo⟩
    rw [hd, hmo]
    simp [hro]
  · rcases divmod_succ_lt k g.mask_keyspace hmk (by omega) with ⟨hd, hmo⟩
    rw [hd, hmo]
    simp [hro]

theorem run_next_invariant (g : pd_feed_global) (data : List Nat)
    (hmk : 0 < g.mask_keyspace)
    (htot : g.total_keyspace = g.word_count * g.mask_keyspace) :
    ∀ k, k ≤ g.total_keyspace →
      (run_next g data k).current_word_idx = k / g.mask_keyspace ∧
      (run_next g data k).current_mask_idx = k % g.mask_keyspace ∧
      (k < g.total_keyspace →
        (run_next g data k).mask_indices =
          index_to_mask_indices g.positions (k % g.mask_keyspace)) := by
  intro k
  induction k with
  | zero =>
    intro hk
    refine ⟨by simp [run_next, thread_init_cursor],
      by simp [run_next, thread_init_cursor], ?_⟩
    intro hk0
    simp [run_next, thread_init_cursor, Nat.zero_mod]
  | succ k ih =>
    intro hk
    have hklt : k < g.total_keyspace := by omega
    rcases ih (by omega) with ⟨hw, hm, hmi⟩
    have hwlt : (run_next g data k).current_word_idx < g.word_count := by
      rw [hw]
      rw [htot] at hklt
      exact (Nat.div_lt_iff_lt_mul hmk).mpr hklt
    have hstep : run_next g data (k + 1) =
        advance_position g (run_next g data k) := by
      rw [run_next, thread_next, if_neg (by omega)]
    rcases advance_position_eq g (run_next g data k) k hmk hw hm with ⟨ha1, ha2, ha3⟩
    rw [hstep, ha1, ha2, ha3]
    refine ⟨rfl, rfl, ?_⟩
    intro hlt
    have hwlt2 : (k + 1) / g.mask_keyspace < g.word_count := by
      rw [htot] at hlt
      exact (Nat.div_lt_iff_lt_mul hmk).mpr hlt
    rw [if_pos hwlt2]

theorem run_next_frozen (g : pd_feed_global) (data : List Nat) (k0 : Nat)
    (hk0 : g.word_count ≤ (run_next g data k0).current_word_idx) :
    ∀ j, run_next g data (k0 + j) = run_next g data k0 := by
  intro j
  induction j with
  | zero => rfl
  | succ j ih =>
    rw [show k0 + (j + 1) = (k0 + j) + 1 by omega, run_next, ih]
    rw [thread_next, if_pos hk0]

theorem generate_candidate_ne_nil (g : pd_feed_global) (t : pd_feed_thread)
    (data : List Nat)
    (hwp : g.word_position < g.positions.length)
    (hnum : g.positions.length ≤ PATTERN_MAX_POSITIONS)
    (hor : 1 ≤ g.word_lengths.getD t.current_word_idx 0 ∨ 2 ≤ g.positions.length) :
    generate_candidate g t data ≠ [] := by
  have h := generate_candidate_parts g t data hwp hnum
  have hlen := h.2.1
  intro hnil
  rw [hnil] at hlen
  simp only [List.length_nil] at hlen
  unfold PW_MAX at hlen
  unfold PATTERN_MAX_POSITIONS at hnum
  omega

theorem thread_next_run_spec (g : pd_feed_global) (data : List Nat)
    (hwf : WFPattern g.positions g.word_position)
    (hmk : g.mask_keyspace = calculate_mask_keyspace g.positions)
    (htot : g.total_keyspace = global_keyspace_total g.word_count g.mask_keyspace)
    (hnosat : g.word_count * maskProd g.positions ≤ U64_MAX)
    (hwc : 1 ≤ g.word_count)
    (hwords : (∀ i, i < g.word_count → 1 ≤ g.word_lengths.getD i 0) ∨
      2 ≤ g.positions.length) :
    (∀ k, k < g.total_keyspace → (thread_next g (run_next g data k) data).1 ≠ []) ∧
    (∀ k, g.total_keyspace ≤ k →
      (thread_next g (run_next g data k) data).1 = [] ∧
      (thread_next g (run_next g data k) data).2 = run_next g data k) := by
  have hcs : ∀ p ∈ g.positions, p.type ≠ POS_WORD → 1 ≤ p.charset.length :=
    hwf.2.2.2.2
  have hprod1 : 1 ≤ maskProd g.positions := maskProd_pos g.positions hcs
  have hprodM : maskProd g.positions ≤ U64_MAX := by
    have : maskProd g.positions ≤ g.word_count * maskProd g.positions :=
      Nat.le_mul_of_pos_left _ (by omega)
    omega
  have hmke : g.mask_keyspace = maskProd g.positions := by
    rw [hmk, calculate_mask_keyspace_min g.positions hcs]
    omega
  have htote : g.total_keyspace = g.word_count * g.mask_keyspace := by
    rw [htot, global_keyspace_total_min, hmke]
    omega
  have hmk1 : 0 < g.mask_keyspace := by omega
  have hinv := run_next_invariant g data hmk1 htote
  constructor
  · intro k hk
    have hw := (hinv k (by omega)).1
    have hwlt : (run_next g data k).current_word_idx < g.word_count := by
      rw [hw, htote] at *
      exact (Nat.div_lt_iff_lt_mul hmk1).mpr (by omega)
    rw [thread_next, if_neg (by omega)]
    simp only
    refine generate_candidate_ne_nil g (run_next g data k) data hwf.1 hwf.2.1 ?_
    rcases hwords with hall | hlen2
    · exact Or.inl (hall _ hwlt)
    · exact Or.inr hlen2
  · intro k hk
    have hfull : (run_next g data g.total_keyspace).current_word_idx = g.word_count := by
      have hw := (hinv g.total_keyspace (le_refl _)).1
      rw [hw, htote, Nat.mul_div_cancel _ hmk1]
    have hfrozen := run_next_frozen g data g.total_keyspace (by omega)
      (k - g.total_keyspace)
    rw [show g.total_keyspace + (k - g.total_keyspace) = k by omega] at hfrozen
    rw [hfrozen, thread_next, if_pos (by omega)]
    exact ⟨rfl, rfl⟩

/-- C4, amended: starting from the freshly initialized cursor over a
compiled pattern and a non-empty word index whose total keyspace is not
saturated — and provided every indexed word has a non-zero recorded length
or the pattern has at least two positions — the first `total_keyspace`
calls of `thread_next` each return a non-empty candidate, and every call
from the `total_keyspace`-th on returns the zero-length "no more" signal
and leaves the cursor unchanged. -/
theorem thread_next_exhaustion (g : pd_feed_global) (data : List Nat)
    (hwf : WFPattern g.positions g.word_position)
    (hmk : g.mask_keyspace = calculate_mask_keyspace g.positions)
    (htot : g.total_keyspace = global_keyspace_total g.word_count g.mask_keyspace)
    (hnosat : g.word_count * maskProd g.positions ≤ U64_MAX)
    (hwc : 1 ≤ g.word_count)
    (hwords : (∀ i, i < g.word_count → 1 ≤ g.word_lengths.getD i 0) ∨
      2 ≤ g.positions.length) :
    (∀ k, k < g.total_keyspace → (thread_next g (run_next g data k) data).1 ≠ []) ∧
    (∀ k, g.total_keyspace ≤ k →
      (thread_next g (run_next g data k) data).1 = [] ∧
      (thread_next g (run_next g data k) data).2 = run_next g data k) :=
  thread_next_run_spec g data hwf hmk htot hnosat hwc hwords

/-- Witness for C4 at the pattern `?d?W` over the single word "x": the
fourth call still produces a candidate, the eleventh call and beyond
return the empty signal. -/
theorem thread_next_exhaustion_witness :
    (thread_next ⟨[⟨POS_DIGIT, 0, CHARSET_DIGIT⟩, ⟨POS_WORD, 0, []⟩], 1, 1, 10, 10,
        [0], [1]⟩
      (run_next ⟨[⟨POS_DIGIT, 0, CHARSET_DIGIT⟩, ⟨POS_WORD, 0, []⟩], 1, 1, 10, 10,
        [0], [1]⟩ [120] 3) [120]).1 ≠ [] ∧
    (thread_next ⟨[⟨POS_DIGIT, 0, CHARSET_DIGIT⟩, ⟨POS_WORD, 0, []⟩], 1, 1, 10, 10,
        [0], [1]⟩
      (run_next ⟨[⟨POS_DIGIT, 0, CHARSET_DIGIT⟩, ⟨POS_WORD, 0, []⟩], 1, 1, 10, 10,
        [0], [1]⟩ [120] 10) [120]).1 = [] := by
  have h := thread_next_exhaustion
    ⟨[⟨POS_DIGIT, 0, CHARSET_DIGIT⟩, ⟨POS_WORD, 0, []⟩], 1, 1, 10, 10, [0], [1]⟩
    [120] (by decide) (by decide) (by decide) (by decide) (by decide)
    (Or.inl (by decide))
  exact ⟨h.1 3 (by decide), (h.2 10 (by decide)).1⟩

/-- Counterexample to C4 as stated: the pattern `?W` compiles, the
word index built from the buffer "\n" is non-empty (one word of recorded
length 0), the total keyspace is 1 and unsaturated — yet the first of the
`total_keyspace` calls of `thread_next` already returns the zero-length
"no more" signal, because the only candidate is the empty word itself. -/
theorem thread_next_exhaustion_counterexample :
    parse_pattern emptyCustoms ['?', 'W'] =
      Except.ok ⟨[⟨POS_WORD, 0, []⟩], 0, 0, 0⟩ ∧
    WFPattern [⟨POS_WORD, 0, []⟩] 0 ∧
    count_words [10] = 1 ∧
    build_word_index [10] = Except.ok [(0, 0)] ∧
    calculate_mask_keyspace [⟨POS_WORD, 0, []⟩] = 1 ∧
    global_keyspace_total 1 (calculate_mask_keyspace [⟨POS_WORD, 0, []⟩]) = 1 ∧
    1 * maskProd [⟨POS_WORD, 0, []⟩] ≤ U64_MAX ∧
    (0 : Nat) < 1 ∧
    (thread_next ⟨[⟨POS_WORD, 0, []⟩], 0, 1, 1, 1, [0], [0]⟩
      (run_next ⟨[⟨POS_WORD, 0, []⟩], 0, 1, 1, 1, [0], [0]⟩ [10] 0) [10]).1 = [] := by
  refine ⟨by rfl, by decide, by decide, ?_, by decide, by decide, by decide,
    by decide, ?_⟩
  · have hb : bwi_loop [10] 0 0 = [(0, 0)] := by
      repeat (rw [bwi_loop]; norm_num [trim_cr_len])
    simp only [build_word_index]
    rw [if_neg (by decide), if_neg (by decide), hb]
  · have hgen : generate_candidate ⟨[⟨POS_WORD, 0, []⟩], 0, 1, 1, 1, [0], [0]⟩
        ⟨0, 0, 0, index_to_mask_indices [⟨POS_WORD, 0, []⟩] 0⟩ [10] = [] := by
      simp only [generate_candidate, gen_pre]
      rw [suffix_go]
      norm_num
    rw [run_next, thread_init_cursor, thread_next, if_neg (by decide)]
    exact hgen

/-! ### Custom charsets (C8) -/

theorem pcc_copy_le (cs src : List Nat) (h : cs.length ≤ CS_CUSTOM_MAX) :
    (pcc_copy cs src).length ≤ CS_CUSTOM_MAX := by
  unfold pcc_copy pcc_copy_len
  split
  · simp only [List.length_append, List.length_take]
    unfold CS_CUSTOM_MAX at *
    split <;> omega
  · exact h

theorem pcc_add_all_le (cs : List Nat) (h : cs.length ≤ CS_CUSTOM_MAX) :
    (pcc_add_all cs).length ≤ CS_CUSTOM_MAX := by
  unfold pcc_add_all
  simp only [List.length_append]
  split <;> split <;> split <;> split <;> simp_all [List.length_append] <;> omega

theorem pcc_qmark_le (cs : List Nat) (h : cs.length ≤ CS_CUSTOM_MAX) :
    (if cs.length < CS_CUSTOM_MAX then cs ++ [63] else cs).length ≤ CS_CUSTOM_MAX := by
  split
  · simp
    omega
  · exact h


theorem pcc_go_capped (customs : List (Option (List Nat))) (c : Char)
    (rest1 : List Char) (cs : List Nat) (h : CS_CUSTOM_MAX ≤ cs.length) :
    pcc_go customs (c :: rest1) cs = Except.ok cs := by
  cases rest1 with
  | nil => rw [pcc_go.eq_2, if_pos h]
  | cons s rest2 =>
    by_cases h1 : s = 'l'
    · subst h1
      rw [pcc_go.eq_3, if_pos h]
    by_cases h2 : s = 'u'
    · subst h2
      rw [pcc_go.eq_4, if_pos h]
    by_cases h3 : s = 'd'
    · subst h3
      rw [pcc_go.eq_5, if_pos h]
    by_cases h4 : s = 's'
    · subst h4
      rw [pcc_go.eq_6, if_pos h]
    by_cases h5 : s = 'h'
    · subst h5
      rw [pcc_go.eq_7, if_pos h]
    by_cases h6 : s = 'H'
    · subst h6
      rw [pcc_go.eq_8, if_pos h]
    by_cases h7 : s = 'b'
    · subst h7
      rw [pcc_go.eq_9, if_pos h]
    by_cases h8 : s = 'a'
    · subst h8
      rw [pcc_go.eq_10, if_pos h]
    by_cases h9 : s = '1'
    · subst h9
      rw [pcc_go.eq_11, if_pos h]
    by_cases h10 : s = '2'
    · subst h10
      rw [pcc_go.eq_12, if_pos h]
    by_cases h11 : s = '3'
    · subst h11
      rw [pcc_go.eq_13, if_pos h]
    by_cases h12 : s = '4'
    · subst h12
      rw [pcc_go.eq_14, if_pos h]
    by_cases h13 : s = '?'
    · subst h13
      rw [pcc_go.eq_15, if_pos h]
    rw [pcc_go.eq_16 customs cs c s rest2 h1 h2 h3 h4 h5 h6 h7 h8 h9 h10 h11 h12 h13,
      if_pos h]

theorem pcc_go_literal (customs : List (Option (List Nat))) (c : Char)
    (rest1 : List Char) (cs : List Nat) (hlt : ¬CS_CUSTOM_MAX ≤ cs.length)
    (hne : ¬c = '?') :
    pcc_go customs (c :: rest1) cs = pcc_go customs rest1 (cs ++ [c.toNat]) := by
  cases rest1 with
  | nil => rw [pcc_go.eq_2, if_neg hlt, if_neg hne]
  | cons s rest2 =>
    by_cases h1 : s = 'l'
    · subst h1
      rw [pcc_go.eq_3, if_neg hlt, if_neg hne]
    by_cases h2 : s = 'u'
    · subst h2
      rw [pcc_go.eq_4, if_neg hlt, if_neg hne]
    by_cases h3 : s = 'd'
    · subst h3
      rw [pcc_go.eq_5, if_neg hlt, if_neg hne]
    by_cases h4 : s = 's'
    · subst h4
      rw [pcc_go.eq_6, if_neg hlt, if_neg hne]
    by_cases h5 : s = 'h'
    · subst h5
      rw [pcc_go.eq_7, if_neg hlt, if_neg hne]
    by_cases h6 : s = 'H'
    · subst h6
      rw [pcc_go.eq_8, if_neg hlt, if_neg hne]
    by_cases h7 : s = 'b'
    · subst h7
      rw [pcc_go.eq_9, if_neg hlt, if_neg hne]
    by_cases h8 : s = 'a'
    · subst h8
      rw [pcc_go.eq_10, if_neg hlt, if_neg hne]
    by_cases h9 : s = '1'
    · subst h9
      rw [pcc_go.eq_11, if_neg hlt, if_neg hne]
    by_cases h10 : s = '2'
    · subst h10
      rw [pcc_go.eq_12, if_neg hlt, if_neg hne]
    by_cases h11 : s = '3'
    · subst h11
      rw [pcc_go.eq_13, if_neg hlt, if_neg hne]
    by_cases h12 : s = '4'
    · subst h12
      rw [pcc_go.eq_14, if_neg hlt, if_neg hne]
    by_cases h13 : s = '?'
    · subst h13
      rw [pcc_go.eq_15, if_neg hlt, if_neg hne]
    rw [pcc_go.eq_16 customs cs c s rest2 h1 h2 h3 h4 h5 h6 h7 h8 h9 h10 h11 h12 h13,
      if_neg hlt, if_neg hne]

theorem pcc_go_length_le (customs : List (Option (List Nat))) :
    ∀ (rest : List Char) (cs : List Nat), cs.length ≤ CS_CUSTOM_MAX →
      ∀ r, pcc_go customs rest cs = Except.ok r → r.length ≤ CS_CUSTOM_MAX := by
  intro rest cs
  induction rest, cs using pcc_go.induct customs
  case case1 =>
    intro hcs r hok
    rw [pcc_go.eq_1] at hok
    injection hok with he
    subst he
    omega
  case case2 =>
    intro hcs r hok
    rename_i c rest1 cs hge
    rw [pcc_go_capped customs c rest1 cs hge] at hok
    injection hok with he
    subst he
    omega
  case case3 =>
    intro hcs r hok
    rename_i cs hlt
    rw [pcc_go.eq_2, if_neg hlt, if_pos rfl] at hok
    exact absurd hok (by simp)
  case case4 =>
    intro hcs r hok
    rename_i cs hlt rest2 ih
    rw [pcc_go.eq_3, if_neg hlt, if_pos rfl] at hok
    exact ih (pcc_copy_le _ _ hcs) r hok
  case case5 =>
    intro hcs r hok
    rename_i cs hlt rest2 ih
    rw [pcc_go.eq_4, if_neg hlt, if_pos rfl] at hok
    exact ih (pcc_copy_le _ _ hcs) r hok
  case case6 =>
    intro hcs r hok
    rename_i cs hlt rest2 ih
    rw [pcc_go.eq_5, if_neg hlt, if_pos rfl] at hok
    exact ih (pcc_copy_le _ _ hcs) r hok
  case case7 =>
    intro hcs r hok
    rename_i cs hlt rest2 ih
    rw [pcc_go.eq_6, if_neg hlt, if_pos rfl] at hok
    exact ih (pcc_copy_le _ _ hcs) r hok
  case case8 =>
    intro hcs r hok
    rename_i cs hlt rest2 ih
    rw [pcc_go.eq_7, if_neg hlt, if_pos rfl] at hok
    exact ih (pcc_copy_le _ _ hcs) r hok
  case case9 =>
    intro hcs r hok
    rename_i cs hlt rest2 ih
    rw [pcc_go.eq_8, if_neg hlt, if_pos rfl] at hok
    exact ih (pcc_copy_le _ _ hcs) r hok
  case case10 =>
    intro hcs r hok
    rename_i cs hlt rest2 ih
    rw [pcc_go.eq_9, if_neg hlt, if_pos rfl] at hok
    exact ih (pcc_copy_le _ _ hcs) r hok
  case case11 =>
    intro hcs r hok
    rename_i cs hlt rest2 ih
    rw [pcc_go.eq_10, if_neg hlt, if_pos rfl] at hok
    exact ih (pcc_add_all_le _ hcs) r hok
  case case12 =>
    intro hcs r hok
    rename_i cs hlt rest2 hnone
    rw [pcc_go.eq_11, if_neg hlt, if_pos rfl, hnone] at hok
    simp at hok
  case case14 =>
    intro hcs r hok
    rename_i cs hlt rest2 hnone
    rw [pcc_go.eq_12, if_neg hlt, if_pos rfl, hnone] at hok
    simp at hok
  case case16 =>
    intro hcs r hok
    rename_i cs hlt rest2 hnone
    rw [pcc_go.eq_13, if_neg hlt, if_pos rfl, hnone] at hok
    simp at hok
  case case18 =>
    intro hcs r hok
    rename_i cs hlt rest2 hnone
    rw [pcc_go.eq_14, if_neg hlt, if_pos rfl, hnone] at hok
    simp at hok
  case case13 =>
    intro hcs r hok
    rename_i cs hlt rest2 src hsome ih
    rw [pcc_go.eq_11, if_neg hlt, if_pos rfl, hsome] at hok
    simp only [] at hok
    exact ih (pcc_copy_le _ _ hcs) r hok
  case case15 =>
    intro hcs r hok
    rename_i cs hlt rest2 src hsome ih
    rw [pcc_go.eq_12, if_neg hlt, if_pos rfl, hsome] at hok
    simp only [] at hok
    exact ih (pcc_copy_le _ _ hcs) r hok
  case case17 =>
    intro hcs r hok
    rename_i cs hlt rest2 src hsome ih
    rw [pcc_go.eq_13, if_neg hlt, if_pos rfl, hsome] at hok
    simp only [] at hok
    exact ih (pcc_copy_le _ _ hcs) r hok
  case case19 =>
    intro hcs r hok
    rename_i cs hlt rest2 src hsome ih
    rw [pcc_go.eq_14, if_neg hlt, if_pos rfl, hsome] at hok
    simp only [] at hok
    exact ih (pcc_copy_le _ _ hcs) r hok
  case case20 =>
    intro hcs r hok
    rename_i cs hlt rest2 ih
    rw [pcc_go.eq_15, if_neg hlt, if_pos rfl] at hok
    exact ih (pcc_qmark_le _ hcs) r hok
  case case21 =>
    intro hcs r hok
    simp only [pcc_go] at hok
    split at hok
    · simp at hok
      subst hok
      omega
    · simp at hok
  case case22 =>
    intro hcs r hok
    rename_i c rest1 cs hlt hne ih
    rw [pcc_go_literal customs c rest1 cs hlt hne] at hok
    exact ih (by simp; omega) r hok

/-- The expansion of the custom-charset definition string `?l?d`. -/
def cs_lower_digit : List Nat := CHARSET_LOWER ++ CHARSET_DIGIT

/-- Custom slots after `-1 usage with the definition string `?l?d`. -/
def scenario_customs : List (Option (List Nat)) := [some cs_lower_digit, none, none, none]

/-- Global state for the pattern `?1?W` over the one-word list containing
"x", as produced by parsing and `global_keyspace`. -/
def scenario_global : pd_feed_global :=
  ⟨[⟨POS_CUSTOM_1, 0, cs_lower_digit⟩, ⟨POS_WORD, 0, []⟩], 1, 1, 36, 36, [0], [1]⟩

set_option maxRecDepth 8192 in
/-- C8: custom-charset definitions expand left to right capped at
`CS_CUSTOM_MAX` bytes (copying only what fits, never failing, on overflow —
`?b?b` stops at exactly 256 bytes), fail on a reference to an undefined
slot, an unrecognized specifier, an out-of-range slot, or an empty
expansion; and `-1 of `?l?d` yields the 26 lowercase letters followed by
the 10 digits (36 bytes), so the pattern `?1?W` over the one-word list
containing "x" has total keyspace 36 and enumerates exactly 36 non-empty
candidates before the exhaustion signal. -/
theorem parse_custom_charset_spec :
    (∀ (customs : List (Option (List Nat))) (rest : List Char) (cs : List Nat),
      cs.length ≤ CS_CUSTOM_MAX → ∀ r, pcc_go customs rest cs = Except.ok r →
        r.length ≤ CS_CUSTOM_MAX) ∧
    parse_custom_charset emptyCustoms 0 ['?', 'l', '?', 'd'] =
      Except.ok scenario_customs ∧
    cs_lower_digit.length = 36 ∧
    pcc_go emptyCustoms ['?', 'b', '?', 'b'] [] = Except.ok CHARSET_BINARY ∧
    parse_custom_charset emptyCustoms 0 ['?', '1'] =
      Except.error pd_error.UndefinedReference ∧
    parse_custom_charset emptyCustoms 0 ['?', 'z'] =
      Except.error pd_error.SpecifierInvalid ∧
    parse_custom_charset emptyCustoms 0 [] = Except.error pd_error.EmptyCharset ∧
    parse_custom_charset emptyCustoms 4 ['a'] = Except.error pd_error.InvalidSlot ∧
    parse_pattern scenario_customs ['?', '1', '?', 'W'] =
      Except.ok ⟨[⟨POS_CUSTOM_1, 0, cs_lower_digit⟩, ⟨POS_WORD, 0, []⟩], 1, 1, 0⟩ ∧
    build_word_index [120] = Except.ok [(0, 1)] ∧
    global_keyspace_total 1
      (calculate_mask_keyspace [⟨POS_CUSTOM_1, 0, cs_lower_digit⟩, ⟨POS_WORD, 0, []⟩]) =
      36 ∧
    (∀ k, k < 36 →
      (thread_next scenario_global (run_next scenario_global [120] k) [120]).1 ≠ []) ∧
    (∀ k, 36 ≤ k →
      (thread_next scenario_global (run_next scenario_global [120] k) [120]).1 = []) := by
  have hrun := thread_next_run_spec scenario_global [120]
    (by decide) (by decide) (by decide) (by decide) (by decide) (Or.inl (by decide))
  refine ⟨pcc_go_length_le, by rfl, by decide, by rfl, by rfl, by rfl, by rfl, by rfl,
    by rfl, ?_, by decide, fun k hk => hrun.1 k hk, fun k hk => (hrun.2 k hk).1⟩
  have hb : bwi_loop [120] 0 0 = [(0, 1)] := by
    repeat (rw [bwi_loop]; norm_num [trim_cr_len])
  simp only [build_word_index]
  rw [if_neg (by decide), if_neg (by decide), hb]

/-- Witness for C8: the capacity bound applied to the concrete expansion
`?l`, and the 36-candidate scenario at its first and last steps. -/
theorem parse_custom_charset_spec_witness :
    CHARSET_LOWER.length ≤ CS_CUSTOM_MAX ∧
    (thread_next scenario_global (run_next scenario_global [120] 35) [120]).1 ≠ [] ∧
    (thread_next scenario_global (run_next scenario_global [120] 36) [120]).1 = [] := by
  have h := parse_custom_charset_spec
  refine ⟨h.1 emptyCustoms ['?', 'l'] [] (by decide) CHARSET_LOWER (by rfl), ?_, ?_⟩
  · exact h.2.2.2.2.2.2.2.2.2.2.2.1 35 (by decide)
  · exact h.2.2.2.2.2.2.2.2.2.2.2.2 36 (by decide)
